import Mathlib

/-!
Verification development for the note-aggregator repository
(src/logic/aggregate.js, src/server.js).

The JavaScript source is shallowly embedded: strings are `String` /
`List Char`, the filesystem is passed in explicitly (the list of Markdown
files found by `glob.sync`, the set of already-existing output paths, and a
flag for directory existence), and the two exported functions
`aggregateNotes` and `getAvailableOptions` become pure Lean functions
returning `Except` / pairs.  Regular expressions from the source are
translated to explicit character-level functions; each translation is
documented at its definition.
-/

namespace NoteAgg

/-! ## Character and string utilities

`isWs` models the JavaScript `\s` character class and the whitespace set of
`String.prototype.trim` restricted to the ASCII range (Unicode spaces such
as NBSP are not modelled; no claim depends on them). -/

def isWs (c : Char) : Bool :=
  c = ' ' || c = '\t' || c = '\n' || c = '\r' || c = '\x0b' || c = '\x0c'

/-- Drop leading whitespace, as the left half of JS `String.prototype.trim`. -/
def trimLeft (s : List Char) : List Char := s.dropWhile isWs

/-- Drop trailing whitespace, as the right half of JS `String.prototype.trim`. -/
def trimRight : List Char → List Char
  | [] => []
  | c :: r =>
    let t := trimRight r
    if t = [] && isWs c then [] else c :: t

/-- JS `String.prototype.trim`: remove whitespace at both ends. -/
def jsTrim (s : List Char) : List Char := trimRight (trimLeft s)

/-- `jsTrim` on `String`. -/
def jsTrimStr (s : String) : String := ⟨jsTrim s.data⟩

/-- Split a character list into its lines (segments separated by `'\n'`).
A string with `n` newline characters yields `n + 1` segments; segments
contain no `'\n'`. -/
def linesOf : List Char → List (List Char)
  | [] => [[]]
  | c :: r =>
    if c = '\n' then [] :: linesOf r
    else
      match linesOf r with
      | l :: ls => (c :: l) :: ls
      | [] => [[c]]

/-- Inverse of `linesOf`: join segments with `'\n'`. -/
def joinLines : List (List Char) → List Char
  | [] => []
  | [l] => l
  | l :: ls => l ++ '\n' :: joinLines ls

/-- A line that consists solely of `---` optionally surrounded by
whitespace.  This characterises where the split regex
`/^\s*---\s*$/m` of aggregate.js line 195 can match: the `---` must sit on
one line whose remaining characters are all whitespace (`^` anchors at a
line start, `$` before a newline or at the end; `-` is not whitespace, so
the three dashes cannot be split across lines). -/
def sepLine (l : List Char) : Bool := jsTrim l = ['-', '-', '-']

/-- The part of the note body before the first `---` separator line
(`contentParts[0]` of `originalContent.split(/^\s*---\s*$/m)` in
aggregate.js line 195), up to surrounding whitespace: the leftmost regex
match may additionally swallow whitespace-only lines immediately before
the separator line (its `^\s*` can cross line boundaries), but the source
immediately applies `.trim()` to `contentParts[0]`, and after trimming the
two readings agree.  The embedding therefore takes the lines before the
first separator line; `extractRelevantContent` below applies the trim. -/
def contentBeforeSep (s : List Char) : List Char :=
  joinLines ((linesOf s).takeWhile (fun l => !(sepLine l)))

/-! ## The heading regex

`relevantContent.replace(/^##\s+\d{4}-\d{2}-\d{2}\s*?\n/m, "")`
(aggregate.js lines 199-201) removes the first (leftmost) match of the
pattern: at a line start, `##`, then one or more whitespace characters
(which may include newlines), then a `YYYY-MM-DD`-shaped digit group, then
the lazy `\s*?\n` — whitespace up to and including the first following
newline.  The matcher below is deterministic because the date must start
with a digit (not whitespace), so backtracking in `\s+` cannot produce a
different match. -/

/-- Consume exactly `n` ASCII digits, returning the rest. -/
def matchDigits : Nat → List Char → Option (List Char)
  | 0, s => some s
  | _ + 1, [] => none
  | n + 1, c :: s => if c.isDigit then matchDigits n s else none

/-- Consume a `\d{4}-\d{2}-\d{2}` date shape. -/
def matchDate (s : List Char) : Option (List Char) :=
  match matchDigits 4 s with
  | some (c1 :: s1) =>
    if c1 = '-' then
      match matchDigits 2 s1 with
      | some (c2 :: s2) => if c2 = '-' then matchDigits 2 s2 else none
      | _ => none
    else none
  | _ => none

/-- Consume the lazy tail `\s*?\n`: whitespace up to and including the
first newline; fails if a non-whitespace character or the end of the
string comes first. -/
def lazyWsNl : List Char → Option (List Char)
  | [] => none
  | c :: r => if c = '\n' then some r else if isWs c then lazyWsNl r else none

/-- Try to match `##\s+\d{4}-\d{2}-\d{2}\s*?\n` at the current position
(which the caller guarantees to be a line start). Returns the remainder
after the match. -/
def matchHeading : List Char → Option (List Char)
  | c1 :: c2 :: s =>
    if c1 = '#' && c2 = '#' then
      if (s.takeWhile isWs) = [] then none
      else
        match matchDate (s.dropWhile isWs) with
        | some s2 => lazyWsNl s2
        | none => none
    else none
  | _ => none

theorem length_dropWhile_le (p : α → Bool) (l : List α) :
    (l.dropWhile p).length ≤ l.length := by
  induction l with
  | nil => simp
  | cons a l ih =>
    by_cases h : p a
    · simp only [List.dropWhile_cons, h, if_true, List.length_cons]
      omega
    · simp [List.dropWhile_cons, h]

/-- Fuel-based worker for `stripFirstHeading` (structural recursion so that
concrete inputs evaluate in the kernel).  In the recursive case the
character at the head of `s.dropWhile (· ≠ '\n')` is necessarily `'\n'`,
which the definition re-emits literally. -/
def stripHeadingGo : Nat → List Char → List Char
  | 0, s => s
  | n + 1, s =>
    match matchHeading s with
    | some rest => rest
    | none =>
      match s.dropWhile (fun c => c ≠ '\n') with
      | [] => s
      | _ :: tail =>
        s.takeWhile (fun c => c ≠ '\n') ++ '\n' :: stripHeadingGo n tail

theorem stripHeadingGo_congr :
    ∀ (n m : Nat) (s : List Char), s.length ≤ n → s.length ≤ m →
      stripHeadingGo n s = stripHeadingGo m s := by
  intro n
  induction n with
  | zero =>
    intro m s hn _
    have hs : s = [] := List.eq_nil_of_length_eq_zero (Nat.le_zero.mp hn)
    subst hs
    cases m <;> rfl
  | succ n ih =>
    intro m s hn hm
    cases m with
    | zero =>
      have hs : s = [] := List.eq_nil_of_length_eq_zero (Nat.le_zero.mp hm)
      subst hs
      rfl
    | succ m =>
      show stripHeadingGo (n + 1) s = stripHeadingGo (m + 1) s
      unfold stripHeadingGo
      cases hmh : matchHeading s with
      | some rest => rfl
      | none =>
        cases hdw : s.dropWhile (fun c => c ≠ '\n') with
        | nil => rfl
        | cons c tail =>
          have hle := length_dropWhile_le (fun c => c ≠ '\n') s
          rw [hdw] at hle
          simp only [List.length_cons] at hle
          have htail : tail.length ≤ n := by omega
          have htail' : tail.length ≤ m := by omega
          simp only [ih m tail htail htail']

/-- `String.prototype.replace` with the heading regex: scan the line starts
from left to right and delete the first match. -/
def stripFirstHeading (s : List Char) : List Char := stripHeadingGo s.length s

/-- Unfolding rule for `stripFirstHeading`, recovering the intended
line-by-line recursion. -/
theorem stripFirstHeading_eq (s : List Char) :
    stripFirstHeading s =
      match matchHeading s with
      | some rest => rest
      | none =>
        match s.dropWhile (fun c => c ≠ '\n') with
        | [] => s
        | _ :: tail =>
          s.takeWhile (fun c => c ≠ '\n') ++ '\n' :: stripFirstHeading tail := by
  cases hl : s.length with
  | zero =>
    have hs : s = [] := List.eq_nil_of_length_eq_zero hl
    subst hs
    rfl
  | succ n =>
    show stripHeadingGo s.length s = _
    rw [hl]
    unfold stripHeadingGo
    cases hmh : matchHeading s with
    | some rest => rfl
    | none =>
      cases hdw : s.dropWhile (fun c => c ≠ '\n') with
      | nil => rfl
      | cons c tail =>
        have hle := length_dropWhile_le (fun c => c ≠ '\n') s
        rw [hdw] at hle
        simp only [List.length_cons] at hle
        have htail : tail.length ≤ n := by omega
        simp only [stripFirstHeading]
        simp only [stripHeadingGo_congr n tail.length tail htail (Nat.le_refl _)]

/-- Content extraction applied to each matching note
(aggregate.js lines 194-201): take the part before the first `---` line,
trim it, remove the first date-heading match, trim again. -/
def extractRelevantContent (body : List Char) : List Char :=
  jsTrim (stripFirstHeading (jsTrim (contentBeforeSep body)))

/-- `extractRelevantContent` on `String`. -/
def extractContent (body : String) : String := ⟨extractRelevantContent body.data⟩

example : extractContent "Went hiking\n---\nsecret stuff" = "Went hiking" := by decide
example : extractContent "## 2024-01-01\nHello" = "Hello" := by decide
example : extractContent "Hello\n## 2024-01-01\nWorld" = "Hello\nWorld" := by decide
example : extractContent "## 2024-01-01\n## 2024-01-02\nx" = "## 2024-01-02\nx" := by decide
example : extractContent "  hi there\n --- \nrest" = "hi there" := by decide
example : extractContent "" = "" := by decide

/-! ## String comparison

JavaScript compares strings (`>=`, `<=` in the date filter, the default
`Array.prototype.sort`) lexicographically by UTF-16 code units.  The
embedding compares by code points, which agrees on all strings without
surrogate pairs; no claim involves astral-plane characters. -/

/-- Lexicographic strict order on character lists. -/
def lexLt : List Char → List Char → Bool
  | [], [] => false
  | [], _ :: _ => true
  | _ :: _, [] => false
  | a :: as, b :: bs => if a < b then true else if b < a then false else lexLt as bs

/-- JS `a <= b` on strings. -/
def strLe (a b : String) : Bool := !(lexLt b.data a.data)

/-- `strLe` as a proposition, for use with `List.insertionSort`. -/
def strLE (a b : String) : Prop := strLe a b = true

instance : DecidableRel strLE := fun a b =>
  inferInstanceAs (Decidable (strLe a b = true))

/-! ## YAML frontmatter values

`gray-matter` hands back parsed YAML, so a frontmatter tag entry can be a
non-string (e.g. the bare number `2024`).  The claims only exercise string
and integer entries, so the embedding models exactly those. -/

inductive YamlVal where
  | str (s : String)
  | num (n : Int)
  deriving DecidableEq

/-- JS `String(t)` on the modelled values. -/
def jsToString : YamlVal → String
  | .str s => s
  | .num n => toString n

/-! ## Data model for the two source functions

The filesystem is passed in explicitly.  A file that cannot be read or
whose frontmatter fails to parse is modelled as `parsed = none` (both
sources log and skip such files).  A `privacy` field holding the empty
string is distinct from an absent field: the source checks truthiness
(`data.privacy && ...`), under which the empty string behaves like an
absent value. -/

structure NoteData where
  tags : Option (List YamlVal)
  privacy : Option String
  content : String
  deriving DecidableEq

structure SrcFile where
  /-- `path.basename(file, ".md")`: the file name without directory and
  without the `.md` extension, which is also the `filenameDate`. -/
  name : String
  parsed : Option NoteData
  deriving DecidableEq

structure AggOptions where
  notesDir : String
  aggregatesDir : String
  requiredTags : Option (List String)
  allowedPrivacy : List String
  startDate : String
  endDate : String
  newNoteTags : List String
  deriving DecidableEq

structure Frontmatter where
  tags : List String
  date : String
  aggregation_type : String
  source_tags : Option (List String)
  source_directory : String
  filter_privacy : List String
  filter_start_date : Option String
  filter_end_date : Option String
  deriving DecidableEq

/-- The terminal failures of `aggregateNotes`.  The source has a single
throw site for the zero-files case (aggregate.js lines 149-157) whose
message mentions the date range iff one was set; `noFilesFound` records
that flag. -/
inductive AggError where
  | missingDirs
  | invalidFilter
  | outputCollision
  | noFilesFound (dateRangeSet : Bool)
  | noMatchingNotes
  deriving DecidableEq

structure AggSuccess where
  outputFile : String
  filesProcessed : Nat
  notesIncluded : Nat
  /-- The `newFrontmatter` object embedded in the written file. -/
  frontmatter : Frontmatter
  /-- `aggregatedContent.join("\n\n---\n\n")`, the body of the written file. -/
  fileBody : String
  deriving DecidableEq

/-- Cleaned tag list of a note (aggregate.js lines 172-175):
`data.tags.map((t) => String(t).trim()).filter(Boolean)` when `data.tags`
is an array, else `[]`. -/
def cleanNoteTags (tags : Option (List YamlVal)) : List String :=
  match tags with
  | some l => (l.map (fun v => jsTrimStr (jsToString v))).filter (fun s => s ≠ "")
  | none => []

/-- Tag test (aggregate.js lines 180-183). -/
def hasRequiredTag (requiredTags : Option (List String)) (noteTags : List String) : Bool :=
  match requiredTags with
  | none => true
  | some req => !noteTags.isEmpty && req.any (fun reqTag => noteTags.contains reqTag)

/-- Privacy test (aggregate.js lines 186-188):
`allowedPrivacy.length === 0 || (data.privacy && allowedPrivacy.includes(data.privacy))`.
The truthiness check makes an empty-string privacy value fail the second
disjunct. -/
def hasAllowedPrivacy (allowedPrivacy : List String) (privacy : Option String) : Bool :=
  allowedPrivacy.isEmpty ||
    (match privacy with
     | some p => !(p == "") && allowedPrivacy.contains p
     | none => false)

/-- Aggregation type and primary tag token (aggregate.js lines 76-89). -/
def primaryTagInfo : Option (List String) → String × String
  | none => ("all-notes", "all")
  | some l => if l.length = 1 then ("single-tag", l.headD "") else ("multi-tag", "multi-tag")

/-- Character sanitisation for `/[^a-zA-Z0-9_-]/g` replacement by `-`. -/
def sanitizeChar (c : Char) : Char :=
  if ('a' ≤ c && c ≤ 'z') || ('A' ≤ c && c ≤ 'Z') || ('0' ≤ c && c ≤ '9')
      || c = '_' || c = '-' then c else '-'

/-- `primaryTag.replace(/[^a-zA-Z0-9_-]/g, "-").toLowerCase()`
(aggregate.js lines 92-94). -/
def sanitizeTag (s : String) : String := ⟨(s.data.map sanitizeChar).map Char.toLower⟩

/-- `.filter((t, i, self) => t && self.indexOf(t) === i)`: keep an element
iff it is truthy (non-empty) and this is its first occurrence. -/
def dedupKeepFirst (seen : List String) : List String → List String
  | [] => []
  | t :: rest =>
    if !(t == "") && !(seen.contains t)
    then t :: dedupKeepFirst (seen ++ [t]) rest
    else dedupKeepFirst (seen ++ [t]) rest

def jsDedupTruthy (l : List String) : List String := dedupKeepFirst [] l

/-- `path.basename`: the part after the last `/` (paths are modelled
without trailing slashes). -/
def basename (s : String) : String := ⟨(s.data.reverse.takeWhile (fun c => c ≠ '/')).reverse⟩

/-- The output path `path.join(aggregatesDir, safeTag-currentDate.md)`
(aggregate.js lines 112-115), with `path.join` modelled as `/`-concatenation. -/
def outputPathOf (aggregatesDir : String) (requiredTags : Option (List String))
    (currentDate : String) : String :=
  aggregatesDir ++ "/" ++ sanitizeTag (primaryTagInfo requiredTags).2 ++ "-" ++ currentDate ++ ".md"

/-- Whether a date range is set: JS `startDate || endDate` truthiness. -/
def hasDateRange (opts : AggOptions) : Bool :=
  decide (opts.startDate ≠ "") || decide (opts.endDate ≠ "")

/-- The date filter predicate (aggregate.js lines 136-141). -/
def dateInRange (opts : AggOptions) (f : SrcFile) : Bool :=
  (decide (opts.startDate = "") || strLe opts.startDate f.name) &&
    (decide (opts.endDate = "") || strLe f.name opts.endDate)

/-- State of the per-file loop (aggregate.js lines 160-219). -/
structure ProcState where
  processed : Nat
  included : Nat
  contents : List String
  deriving DecidableEq

/-- One iteration of the per-file loop.  `processedCount` increments for
every file; on a read/parse failure the file is skipped (error logged).
`includedCount` increments as soon as both tests pass — before the
extracted content is inspected; an empty extraction only skips the
`aggregatedContent.push`. -/
def processFile (opts : AggOptions) (st : ProcState) (f : SrcFile) : ProcState :=
  let st := { st with processed := st.processed + 1 }
  match f.parsed with
  | none => st
  | some d =>
    let noteTags := cleanNoteTags d.tags
    if hasRequiredTag opts.requiredTags noteTags &&
        hasAllowedPrivacy opts.allowedPrivacy d.privacy then
      let st := { st with included := st.included + 1 }
      let relevantContent := extractContent d.content
      if relevantContent = "" then st
      else { st with contents := st.contents ++ [relevantContent] }
    else st

/-- Ordering of the per-file loop: `files.sort()` sorts the path strings;
with a common directory prefix this is the lexicographic order of the
basenames. -/
def fileLe (a b : SrcFile) : Prop := strLE a.name b.name

instance : DecidableRel fileLe := fun a b =>
  inferInstanceAs (Decidable (strLe a.name b.name = true))

/-- The aggregation engine (aggregate.js lines 49-248).  `files` is the
result of `glob.sync` on `notesDir/*.md`; `existingOutputs` are the paths
for which `fs.existsSync` answers true in `aggregatesDir`; `currentDate`
is `new Date().toISOString().slice(0, 10)`.  On success the returned
record carries everything the source writes; an error performs no write. -/
def aggregateNotes (opts : AggOptions) (files : List SrcFile)
    (existingOutputs : List String) (currentDate : String) :
    Except AggError AggSuccess :=
  if opts.notesDir = "" || opts.aggregatesDir = "" then .error .missingDirs
  else if (match opts.requiredTags with | none => false | some l => l.isEmpty) then
    .error .invalidFilter
  else
    let aggregationType := (primaryTagInfo opts.requiredTags).1
    let safeTagForFilename := sanitizeTag (primaryTagInfo opts.requiredTags).2
    let newFrontmatter : Frontmatter := {
      tags := jsDedupTruthy ("aggregated" :: safeTagForFilename :: opts.newNoteTags)
      date := currentDate
      aggregation_type := aggregationType
      source_tags := opts.requiredTags
      source_directory := basename opts.notesDir
      filter_privacy := opts.allowedPrivacy
      filter_start_date := if opts.startDate = "" then none else some opts.startDate
      filter_end_date := if opts.endDate = "" then none else some opts.endDate }
    let aggregatedFilename := outputPathOf opts.aggregatesDir opts.requiredTags currentDate
    if existingOutputs.contains aggregatedFilename then .error .outputCollision
    else
      let files1 := if hasDateRange opts then files.filter (dateInRange opts) else files
      if files1.isEmpty then .error (.noFilesFound (hasDateRange opts))
      else
        let sorted := List.insertionSort fileLe files1
        let st := sorted.foldl (processFile opts) ⟨0, 0, []⟩
        if st.contents.isEmpty then .error .noMatchingNotes
        else .ok {
          outputFile := aggregatedFilename
          filesProcessed := st.processed
          notesIncluded := st.included
          frontmatter := newFrontmatter
          fileBody := String.intercalate "\n\n---\n\n" st.contents }

/-! ## The Option Scanner (`getAvailableOptions`, aggregate.js lines 8-46) -/

structure ScanData where
  tags : Option (List YamlVal)
  privacy : Option String
  deriving DecidableEq

structure ScanFile where
  parsed : Option ScanData
  deriving DecidableEq

/-- Tags contributed by one parsed file:
`if (tag && typeof tag === "string") tags.add(tag.trim())` — only truthy
string entries are kept, trimmed. -/
def scanFileTags (d : ScanData) : List String :=
  match d.tags with
  | some l =>
    l.filterMap (fun v =>
      match v with
      | .str s => if s = "" then none else some (jsTrimStr s)
      | _ => none)
  | none => []

/-- Privacy value contributed by one parsed file (`if (data.privacy)
privacyLevels.add(data.privacy)`): kept verbatim, only when truthy. -/
def scanFilePrivacy (d : ScanData) : Option String :=
  match d.privacy with
  | some p => if p = "" then none else some p
  | none => none

/-- The Option Scanner.  `dirExists` is `fs.existsSync(notesDir)`.  The
JS `Set` + `Array.from(...).sort()` pipeline is modelled as `dedup`
followed by `insertionSort`: removing duplicates before sorting yields the
same sorted list whichever occurrences the deduplication keeps. -/
def getAvailableOptions (dirExists : Bool) (files : List ScanFile) :
    List String × List String :=
  if !dirExists then ([], [])
  else
    let tagList := files.foldr (fun f acc =>
      (match f.parsed with | some d => scanFileTags d | none => []) ++ acc) []
    let privacyList := files.foldr (fun f acc =>
      (match f.parsed with | some d => (scanFilePrivacy d).toList | none => []) ++ acc) []
    (List.insertionSort strLE tagList.dedup,
     List.insertionSort strLE privacyList.dedup)

deriving instance DecidableEq for Except

example :
    aggregateNotes
      { notesDir := "/vault/daily", aggregatesDir := "/out", requiredTags := some ["trip"],
        allowedPrivacy := [], startDate := "", endDate := "", newNoteTags := [] }
      [⟨"2024-01-01", some ⟨some [.str "trip"], some "public", "Went hiking\n---\nsecret stuff"⟩⟩,
       ⟨"2024-01-02", some ⟨some [.str "work"], none, "Did work"⟩⟩]
      [] "2025-06-01" =
    .ok { outputFile := "/out/trip-2025-06-01.md", filesProcessed := 2, notesIncluded := 1,
          frontmatter := { tags := ["aggregated", "trip"], date := "2025-06-01",
                           aggregation_type := "single-tag", source_tags := some ["trip"],
                           source_directory := "daily", filter_privacy := [],
                           filter_start_date := none, filter_end_date := none },
          fileBody := "Went hiking" } := by decide

/-! ## Shared predicates used by the claim theorems -/

/-- The validity the engine checks for `requiredTags`: `null` or a
non-empty array. -/
def validRequiredTags : Option (List String) → Prop
  | none => True
  | some l => l ≠ []

/-- Same "shape" of `requiredTags` in the sense of the output-path
determinism property: both match-all, both the same single tag, or both
multi-tag. -/
def sameTagShape : Option (List String) → Option (List String) → Prop
  | none, none => True
  | some [t1], some [t2] => t1 = t2
  | some l1, some l2 => 2 ≤ l1.length ∧ 2 ≤ l2.length
  | _, _ => False

/-! ## Claim C5: the tag test -/

/-- C5: for a non-match-all filter (a non-empty `requiredTags` list) the
tag test passes iff the cleaned tag list is non-empty and some tag of the
note belongs to `requiredTags`; a note with zero tags never passes. -/
theorem tag_test_characterisation (rt noteTags : List String) (_hrt : rt ≠ []) :
    (hasRequiredTag (some rt) noteTags = true ↔
      noteTags ≠ [] ∧ ∃ t ∈ noteTags, t ∈ rt) ∧
    hasRequiredTag (some rt) [] = false := by
  constructor
  · simp only [hasRequiredTag, Bool.and_eq_true, List.any_eq_true,
      Bool.not_eq_true', List.isEmpty_eq_false]
    constructor
    · rintro ⟨h1, r, hr, hmem⟩
      rw [List.elem_iff] at hmem
      exact ⟨by simpa using h1, r, hmem, hr⟩
    · rintro ⟨h1, t, ht, htr⟩
      exact ⟨by simpa using h1, t, htr, by rw [List.elem_iff]; exact ht⟩
  · simp [hasRequiredTag]

/-- Witness for C5 at a concrete input. -/
theorem tag_test_characterisation_witness :
    (hasRequiredTag (some ["trip"]) ["trip", "x"] = true ↔
      ["trip", "x"] ≠ ([] : List String) ∧ ∃ t ∈ ["trip", "x"], t ∈ ["trip"]) ∧
    hasRequiredTag (some ["trip"]) [] = false :=
  tag_test_characterisation ["trip"] ["trip", "x"] (by decide)

/-! ## Claim C6: the privacy test -/

/-- C6 counterexample: a note whose `privacy` value is the empty string
fails the test even though the empty string is a member of
`allowedPrivacy` — `data.privacy && ...` is falsy for `""`.  The claim
predicts the test passes for every privacy string value present in
`allowedPrivacy`, including the empty string. -/
theorem privacy_test_empty_string_counterexample :
    hasAllowedPrivacy [""] (some "") = false ∧
      ("" ∈ [""] ∧ [""] ≠ ([] : List String)) := by decide

/-- C6 amended: the privacy test passes iff `allowedPrivacy` is empty, or
the note has a non-empty `privacy` value present in `allowedPrivacy` (an
empty-string value is falsy in JS and behaves like an absent field). -/
theorem privacy_test_characterisation (allowed : List String) (privacy : Option String) :
    hasAllowedPrivacy allowed privacy = true ↔
      (allowed = [] ∨ ∃ p, privacy = some p ∧ p ≠ "" ∧ p ∈ allowed) := by
  cases privacy with
  | none => simp [hasAllowedPrivacy, List.isEmpty_iff]
  | some p =>
    simp only [hasAllowedPrivacy, Bool.or_eq_true, List.isEmpty_iff,
      Bool.and_eq_true, Bool.not_eq_true']
    constructor
    · rintro (h | ⟨hne, hc⟩)
      · exact Or.inl h
      · refine Or.inr ⟨p, rfl, ?_, ?_⟩
        · intro he
          subst he
          simp at hne
        · rw [← List.elem_iff]
          exact hc
    · rintro (h | ⟨q, hq, hne, hmem⟩)
      · exact Or.inl h
      · cases hq
        refine Or.inr ⟨?_, ?_⟩
        · simpa using hne
        · rw [List.elem_iff]
          exact hmem

/-! ## Claim C4: output-path determinism and collision failure -/

/-- C4: (a) two calls on the same day (same `currentDate`) into the same
`aggregatesDir` whose `requiredTags` have the same shape compute the same
output path; (b) whenever a file already exists at the computed path, the
call fails with `outputCollision` (and, the result being an error, nothing
is written). -/
theorem output_path_det_and_collision :
    (∀ (dir date : String) (rt1 rt2 : Option (List String)),
       sameTagShape rt1 rt2 → outputPathOf dir rt1 date = outputPathOf dir rt2 date) ∧
    (∀ (opts : AggOptions) (files : List SrcFile) (existing : List String) (date : String),
       opts.notesDir ≠ "" → opts.aggregatesDir ≠ "" →
       validRequiredTags opts.requiredTags →
       outputPathOf opts.aggregatesDir opts.requiredTags date ∈ existing →
       aggregateNotes opts files existing date = .error .outputCollision) := by
  constructor
  · intro dir date rt1 rt2 hshape
    match rt1, rt2 with
    | none, none => rfl
    | some [t1], some [t2] =>
      simp only [sameTagShape] at hshape
      rw [hshape]
    | some (a1 :: b1 :: l1), some (a2 :: b2 :: l2) =>
      simp only [outputPathOf, primaryTagInfo]
      norm_num [List.length_cons]
    | none, some l => exact absurd hshape (by cases l <;> simp [sameTagShape])
    | some l, none =>
      exact absurd hshape (by cases l with
        | nil => simp [sameTagShape]
        | cons a t => cases t <;> simp [sameTagShape])
    | some [], some l2 =>
      exact absurd hshape (by
        cases l2 with
        | nil => simp [sameTagShape]
        | cons a t => cases t <;> simp [sameTagShape])
    | some (a1 :: b1 :: l1), some [] => exact absurd hshape (by simp [sameTagShape])
    | some [t1], some (a2 :: b2 :: l2) => exact absurd hshape (by simp [sameTagShape])
    | some (a1 :: b1 :: l1), some [t2] => exact absurd hshape (by simp [sameTagShape])
  · intro opts files existing date h1 h2 h3 hmem
    unfold aggregateNotes
    rw [if_neg, if_neg, if_pos]
    · rw [List.elem_iff]
      exact hmem
    · cases hrt : opts.requiredTags with
      | none => simp
      | some l =>
        rw [hrt] at h3
        simpa [List.isEmpty_iff] using h3
    · simp [h1, h2]

/-- Witness for C4 at concrete inputs. -/
theorem output_path_det_and_collision_witness :
    outputPathOf "/out" (some ["a", "b"]) "2025-06-01" =
      outputPathOf "/out" (some ["c", "d", "e"]) "2025-06-01" ∧
    aggregateNotes
      { notesDir := "/vault", aggregatesDir := "/out", requiredTags := none,
        allowedPrivacy := [], startDate := "", endDate := "", newNoteTags := [] }
      [] ["/out/all-2025-06-01.md"] "2025-06-01" = .error .outputCollision :=
  ⟨output_path_det_and_collision.1 "/out" "2025-06-01" (some ["a", "b"])
      (some ["c", "d", "e"]) (by simp [sameTagShape]),
   output_path_det_and_collision.2
      { notesDir := "/vault", aggregatesDir := "/out", requiredTags := none,
        allowedPrivacy := [], startDate := "", endDate := "", newNoteTags := [] }
      [] ["/out/all-2025-06-01.md"] "2025-06-01"
      (by decide) (by decide) (by trivial) (by decide)⟩

/-! ## Claim C2: classification of the zero-files failure -/

/-- C2 counterexample: an empty source directory with a date range set
fails with the date-range error (`noFilesFound true`, message "No files
found ... within the date range [...]"), not with the EmptySource-style
error (`noFilesFound false`, message "No files found ... matching the
criteria").  The claim asserts the EmptySource failure fires at
enumeration, before the date filter. -/
theorem empty_source_with_range_counterexample :
    aggregateNotes
      { notesDir := "/vault", aggregatesDir := "/out", requiredTags := none,
        allowedPrivacy := [], startDate := "2024-01-01", endDate := "",
        newNoteTags := [] }
      [] [] "2025-06-01" = .error (.noFilesFound true) ∧
    AggError.noFilesFound true ≠ AggError.noFilesFound false := by decide

/-- C2 amended: the engine has a single zero-files check, placed after the
date filter; the failure is reported as the date-range variant iff a date
range was set, regardless of whether the directory was already empty
before filtering. -/
theorem no_files_classification (opts : AggOptions) (files : List SrcFile)
    (existing : List String) (date : String)
    (h1 : opts.notesDir ≠ "") (h2 : opts.aggregatesDir ≠ "")
    (h3 : validRequiredTags opts.requiredTags)
    (h4 : outputPathOf opts.aggregatesDir opts.requiredTags date ∉ existing)
    (h5 : (if hasDateRange opts then files.filter (dateInRange opts) else files) = []) :
    aggregateNotes opts files existing date = .error (.noFilesFound (hasDateRange opts)) := by
  unfold aggregateNotes
  rw [if_neg, if_neg, if_neg, if_pos]
  · rw [h5]
    simp
  · rw [List.elem_iff]
    exact h4
  · cases hrt : opts.requiredTags with
    | none => simp
    | some l =>
      rw [hrt] at h3
      simpa [List.isEmpty_iff] using h3
  · simp [h1, h2]

/-- Witness for C2 at a concrete input (empty directory, no range). -/
theorem no_files_classification_witness :
    aggregateNotes
      { notesDir := "/vault", aggregatesDir := "/out", requiredTags := none,
        allowedPrivacy := [], startDate := "", endDate := "", newNoteTags := [] }
      [] [] "2025-06-01" =
      .error (.noFilesFound (hasDateRange
        { notesDir := "/vault", aggregatesDir := "/out", requiredTags := none,
          allowedPrivacy := [], startDate := "", endDate := "", newNoteTags := [] })) :=
  no_files_classification
    { notesDir := "/vault", aggregatesDir := "/out", requiredTags := none,
      allowedPrivacy := [], startDate := "", endDate := "", newNoteTags := [] }
    [] [] "2025-06-01" (by decide) (by decide) (by trivial) (by decide) (by decide)

/-! ## Claim C10: non-string tag entries — engine coerces, scanner drops -/

/-- C10: a corpus with one note whose only frontmatter tag is the number
`2024`.  The engine cleans tags with `String(t)`, so the note passes a tag
test for `requiredTags = ["2024"]` and the aggregation includes it; the
Option Scanner keeps only string-typed entries, so its tag collection for
the same corpus is empty. -/
theorem numeric_tag_engine_vs_scanner :
    (getAvailableOptions true [⟨some ⟨some [.num 2024], none⟩⟩]).1 = [] ∧
    cleanNoteTags (some [.num 2024]) = ["2024"] ∧
    hasRequiredTag (some ["2024"]) (cleanNoteTags (some [.num 2024])) = true ∧
    (aggregateNotes
      { notesDir := "/vault", aggregatesDir := "/out", requiredTags := some ["2024"],
        allowedPrivacy := [], startDate := "", endDate := "", newNoteTags := [] }
      [⟨"2024-05-05", some ⟨some [.num 2024], none, "Body"⟩⟩]
      [] "2025-06-01").map AggSuccess.notesIncluded = .ok 1 := by decide

/-! ## Order facts about `lexLt` / `strLE` (for the scanner's sort) -/

theorem lexLt_asymm : ∀ {a b : List Char}, lexLt a b = true → lexLt b a = false := by
  intro a
  induction a with
  | nil =>
    intro b h
    cases b with
    | nil => simp [lexLt] at h
    | cons y ys => simp [lexLt]
  | cons x xs ih =>
    intro b h
    cases b with
    | nil => simp [lexLt] at h
    | cons y ys =>
      simp only [lexLt] at h ⊢
      by_cases hxy : x < y
      · have hyx : ¬ y < x := lt_asymm hxy
        simp [hxy, hyx]
      · by_cases hyx : y < x
        · simp [hxy, hyx] at h
        · simp only [hxy, hyx, if_false] at h ⊢
          exact ih h

theorem lexLt_false_trans :
    ∀ {a b c : List Char}, lexLt b a = false → lexLt c b = false → lexLt c a = false := by
  intro a
  induction a with
  | nil =>
    intro b c _ _
    cases c <;> simp [lexLt]
  | cons x xs ih =>
    intro b c h1 h2
    cases c with
    | nil =>
      cases b with
      | nil => simp [lexLt] at h1
      | cons hd tl => simp [lexLt] at h2
    | cons z zs =>
      cases b with
      | nil => simp [lexLt] at h1
      | cons y ys =>
        simp only [lexLt] at h1 h2 ⊢
        by_cases hyx : y < x
        · simp [hyx] at h1
        · by_cases hzy : z < y
          · simp [hzy] at h2
          · have hxy : x ≤ y := not_lt.mp hyx
            have hyz : y ≤ z := not_lt.mp hzy
            have hxz : x ≤ z := le_trans hxy hyz
            have hzx : ¬ z < x := not_lt.mpr hxz
            simp only [hzx, if_false]
            by_cases hxz' : x < z
            · simp [hxz']
            · have hexz : x = z := le_antisymm hxz (not_lt.mp hxz')
              have hyx2 : y ≤ x := by
                rw [hexz]
                exact hyz
              have hexy : x = y := le_antisymm hxy hyx2
              rw [← hexy] at h1
              rw [← hexy, ← hexz] at h2
              simp only [lt_irrefl, if_false] at h1 h2
              simp only [hxz', if_false]
              exact ih h1 h2

instance : IsTotal String strLE where
  total a b := by
    by_cases h : lexLt b.data a.data = true
    · right
      simp only [strLE, strLe, lexLt_asymm h, Bool.not_false]
    · left
      simp only [strLE, strLe, Bool.not_eq_true']
      rw [Bool.not_eq_true] at h
      simpa using h

instance : IsTrans String strLE where
  trans a b c hab hbc := by
    simp only [strLE, strLe, Bool.not_eq_true'] at hab hbc ⊢
    exact lexLt_false_trans hab hbc

/-! ## Claim C9: the Option Scanner -/

/-- C9: the scanner on a missing directory returns both collections empty
(not an error), and for every directory both returned collections are
deduplicated (`Nodup`) and sorted ascending (`Sorted strLE`, the
lexicographic order on strings). -/
theorem scanner_missing_dir_and_sorted :
    (∀ files, getAvailableOptions false files = ([], [])) ∧
    (∀ (b : Bool) (files : List ScanFile),
      (getAvailableOptions b files).1.Nodup ∧
      List.Sorted strLE (getAvailableOptions b files).1 ∧
      (getAvailableOptions b files).2.Nodup ∧
      List.Sorted strLE (getAvailableOptions b files).2) := by
  constructor
  · intro files
    rfl
  · intro b files
    cases b with
    | false => simp [getAvailableOptions]
    | true =>
      simp only [getAvailableOptions, Bool.not_true, Bool.false_eq_true, if_false]
      refine ⟨?_, ?_, ?_, ?_⟩
      · exact ((List.perm_insertionSort strLE _).nodup_iff).mpr (List.nodup_dedup _)
      · exact List.sorted_insertionSort strLE _
      · exact ((List.perm_insertionSort strLE _).nodup_iff).mpr (List.nodup_dedup _)
      · exact List.sorted_insertionSort strLE _

/-! ## Claim C1: what `notesIncluded` counts -/

/-- Under a match-all filter with no privacy constraint, every
successfully parsed file increments `includedCount`, whether or not its
extracted content is empty. -/
theorem foldl_included_matchall (opts : AggOptions)
    (h1 : opts.requiredTags = none) (h2 : opts.allowedPrivacy = []) :
    ∀ (l : List SrcFile) (st : ProcState),
      (l.foldl (processFile opts) st).included =
        st.included + l.countP (fun f => f.parsed.isSome) := by
  intro l
  induction l with
  | nil => simp
  | cons f fs ih =>
    intro st
    rw [List.foldl_cons, ih]
    cases hp : f.parsed with
    | none => simp [processFile, hp, List.countP_cons]
    | some d =>
      simp only [processFile, hp, h1, h2, hasRequiredTag, hasAllowedPrivacy,
        List.isEmpty_nil, Bool.true_or, Bool.true_and, if_true, List.countP_cons]
      split
      · simp only [Option.isSome_some, if_true]
        omega
      · simp only [Option.isSome_some, if_true]
        omega

/-- C1 counterexample: two readable notes, one with empty content.  Both
pass the match-all tests, so `notesIncluded` is 2, while only one note has
non-empty extracted content.  The claim asserts `notesIncluded` would be 1. -/
theorem empty_content_counted_counterexample :
    (aggregateNotes
      { notesDir := "/vault", aggregatesDir := "/out", requiredTags := none,
        allowedPrivacy := [], startDate := "", endDate := "", newNoteTags := [] }
      [⟨"2024-01-01", some ⟨none, none, "Hello"⟩⟩,
       ⟨"2024-01-02", some ⟨none, none, ""⟩⟩]
      [] "2025-06-01").map AggSuccess.notesIncluded = .ok 2 ∧
    ([⟨"2024-01-01", some ⟨none, none, "Hello"⟩⟩,
      (⟨"2024-01-02", some ⟨none, none, ""⟩⟩ : SrcFile)].filter
        (fun f => match f.parsed with
          | some d => decide (extractContent d.content ≠ "")
          | none => false)).length = 1 := by decide

/-- C1 amended: `includedCount` increments when the tag and privacy tests
pass, before content extraction; an empty extraction only skips the
content push (with a warning).  Hence with `requiredTags` = match-all,
empty `allowedPrivacy` and no date range, a successful call returns
`notesIncluded` equal to the number of readable (successfully parsed)
Markdown files — including those whose extracted content is empty. -/
theorem notes_included_counts_readable (opts : AggOptions) (files : List SrcFile)
    (existing : List String) (date : String) (r : AggSuccess)
    (hrt : opts.requiredTags = none) (hap : opts.allowedPrivacy = [])
    (hsd : opts.startDate = "") (hed : opts.endDate = "")
    (hok : aggregateNotes opts files existing date = .ok r) :
    r.notesIncluded = (files.filter (fun f => f.parsed.isSome)).length := by
  unfold aggregateNotes at hok
  have hdr : hasDateRange opts = false := by
    simp [hasDateRange, hsd, hed]
  simp only [hrt, hdr, if_false, Bool.false_eq_true] at hok
  split at hok
  · exact absurd hok (by simp)
  · split at hok
    · exact absurd hok (by simp)
    · split at hok
      · exact absurd hok (by simp)
      · split at hok
        · exact absurd hok (by simp)
        · rw [Except.ok.injEq] at hok
          subst hok
          show (List.foldl (processFile opts) ⟨0, 0, []⟩ _).included = _
          rw [foldl_included_matchall opts hrt hap]
          rw [(List.perm_insertionSort fileLe files).countP_eq]
          rw [List.countP_eq_length_filter]
          simp

/-- Witness for C1 (amended) at a concrete input. -/
theorem notes_included_counts_readable_witness :
    (aggregateNotes
      { notesDir := "/vault", aggregatesDir := "/out", requiredTags := none,
        allowedPrivacy := [], startDate := "", endDate := "", newNoteTags := [] }
      [⟨"2024-01-01", some ⟨none, none, "Hi"⟩⟩, ⟨"2024-01-02", none⟩]
      [] "2025-06-01" = .ok
        { outputFile := "/out/all-2025-06-01.md", filesProcessed := 2, notesIncluded := 1,
          frontmatter := { tags := ["aggregated", "all"], date := "2025-06-01",
                           aggregation_type := "all-notes", source_tags := none,
                           source_directory := "vault", filter_privacy := [],
                           filter_start_date := none, filter_end_date := none },
          fileBody := "Hi" }) ∧
    (1 : Nat) = ([⟨"2024-01-01", some ⟨none, none, "Hi"⟩⟩,
      (⟨"2024-01-02", none⟩ : SrcFile)].filter (fun f => f.parsed.isSome)).length :=
  ⟨by decide,
   notes_included_counts_readable
     { notesDir := "/vault", aggregatesDir := "/out", requiredTags := none,
       allowedPrivacy := [], startDate := "", endDate := "", newNoteTags := [] }
     [⟨"2024-01-01", some ⟨none, none, "Hi"⟩⟩, ⟨"2024-01-02", none⟩]
     [] "2025-06-01"
     { outputFile := "/out/all-2025-06-01.md", filesProcessed := 2, notesIncluded := 1,
       frontmatter := { tags := ["aggregated", "all"], date := "2025-06-01",
                        aggregation_type := "all-notes", source_tags := none,
                        source_directory := "vault", filter_privacy := [],
                        filter_start_date := none, filter_end_date := none },
       fileBody := "Hi" }
     rfl rfl rfl rfl (by decide)⟩

/-! ## Structure of `linesOf` / `joinLines` -/

theorem linesOf_ne_nil (s : List Char) : linesOf s ≠ [] := by
  cases s with
  | nil => simp [linesOf]
  | cons c r =>
    by_cases h : c = '\n'
    · simp [linesOf, h]
    · simp only [linesOf, h, if_false]
      cases linesOf r <;> simp

theorem linesOf_cons_nl (r : List Char) : linesOf ('\n' :: r) = [] :: linesOf r := by
  simp [linesOf]

theorem linesOf_cons_ne (c : Char) (r : List Char) (h : c ≠ '\n')
    (l : List Char) (ls : List (List Char)) (hlr : linesOf r = l :: ls) :
    linesOf (c :: r) = (c :: l) :: ls := by
  simp [linesOf, h, hlr]

/-- Splitting on a newline splits the line lists. -/
theorem linesOf_append_nl (a b : List Char) :
    linesOf (a ++ '\n' :: b) = linesOf a ++ linesOf b := by
  induction a with
  | nil =>
    rw [List.nil_append, linesOf_cons_nl]
    rfl
  | cons c r ih =>
    by_cases h : c = '\n'
    · subst h
      rw [List.cons_append, linesOf_cons_nl, linesOf_cons_nl, ih, List.cons_append]
    · cases hlr : linesOf r with
      | nil => exact absurd hlr (linesOf_ne_nil r)
      | cons l ls =>
        have h2 : linesOf (r ++ '\n' :: b) = l :: (ls ++ linesOf b) := by
          rw [ih, hlr]
          rfl
        rw [List.cons_append, linesOf_cons_ne c _ h _ _ h2,
          linesOf_cons_ne c r h _ _ hlr, List.cons_append]

theorem linesOf_nl_free (s : List Char) (h : '\n' ∉ s) : linesOf s = [s] := by
  induction s with
  | nil => rfl
  | cons c r ih =>
    have hc : c ≠ '\n' := fun he => h (he ▸ List.mem_cons_self c r)
    have hr : '\n' ∉ r := fun hm => h (List.mem_cons_of_mem c hm)
    simp only [linesOf, hc, if_false, ih hr]

theorem nl_not_mem_of_mem_linesOf {s : List Char} {l : List Char}
    (hl : l ∈ linesOf s) : '\n' ∉ l := by
  induction s generalizing l with
  | nil =>
    rw [show linesOf [] = [[]] from rfl] at hl
    rcases List.mem_singleton.mp hl with rfl
    simp
  | cons c r ih =>
    by_cases hc : c = '\n'
    · subst hc
      rw [linesOf_cons_nl] at hl
      rcases List.mem_cons.mp hl with h | h
      · subst h
        simp
      · exact ih h
    · cases hlr : linesOf r with
      | nil => exact absurd hlr (linesOf_ne_nil r)
      | cons l0 ls =>
        rw [linesOf_cons_ne c r hc l0 ls hlr] at hl
        rcases List.mem_cons.mp hl with h | h
        · subst h
          intro hmem
          rcases List.mem_cons.mp hmem with he | hm
          · exact hc he.symm
          · refine ih ?_ hm
            rw [hlr]
            exact List.mem_cons_self l0 ls
        · refine ih ?_
          rw [hlr]
          exact List.mem_cons_of_mem l0 h

theorem joinLines_cons_ne (l : List Char) {ls : List (List Char)} (h : ls ≠ []) :
    joinLines (l :: ls) = l ++ '\n' :: joinLines ls := by
  cases ls with
  | nil => exact absurd rfl h
  | cons l2 ls2 => rfl

theorem joinLines_linesOf (s : List Char) : joinLines (linesOf s) = s := by
  induction s with
  | nil => rfl
  | cons c r ih =>
    by_cases hc : c = '\n'
    · subst hc
      rw [linesOf, if_pos rfl, joinLines_cons_ne [] (linesOf_ne_nil r), ih]
      rfl
    · rw [linesOf, if_neg hc]
      cases hlr : linesOf r with
      | nil => exact absurd hlr (linesOf_ne_nil r)
      | cons l ls =>
        rw [hlr] at ih
        cases ls with
        | nil =>
          show joinLines [c :: l] = c :: r
          show c :: l = c :: r
          rw [show l = r from ih]
        | cons l2 ls2 =>
          rw [joinLines_cons_ne _ (by simp), List.cons_append,
            ← joinLines_cons_ne l (by simp), ih]

/-- `takeWhile` over a list whose first failing element is known. -/
theorem takeWhile_append_head_false {p : List Char → Bool}
    (xs : List (List Char)) (l : List Char) (ys : List (List Char))
    (hall : ∀ x ∈ xs, p x = true) (hl : p l = false) :
    (xs ++ l :: ys).takeWhile p = xs := by
  induction xs with
  | nil => simp [List.takeWhile_cons, hl]
  | cons x xs ih =>
    have hx : p x = true := hall x (List.mem_cons_self x xs)
    simp only [List.cons_append, List.takeWhile_cons, hx, if_true]
    rw [ih (fun y hy => hall y (List.mem_cons_of_mem x hy))]

/-- A body none of whose lines is a separator line passes `contentBeforeSep`
unchanged. -/
theorem contentBeforeSep_of_noSep (s : List Char)
    (h : ∀ l ∈ linesOf s, sepLine l = false) : contentBeforeSep s = s := by
  unfold contentBeforeSep
  rw [List.takeWhile_eq_self_iff.mpr (fun l hl => by simp [h l hl]), joinLines_linesOf]

/-! ## Claim C3: the extraction rule -/

/-- The heading-stripping step as claim C3 words it: the heading is
removed only when it is present at the very start of the content; a
heading appearing later is left intact. -/
def stripHeadingAtStartOnly (s : List Char) : List Char :=
  match matchHeading s with
  | some rest => rest
  | none => s

/-- Content extraction as claim C3 words it, for comparison with
`extractContent`. -/
def extractContentClaimC3 (body : String) : String :=
  ⟨jsTrim (stripHeadingAtStartOnly (jsTrim (contentBeforeSep body.data)))⟩

/-- C3 counterexample: a `## YYYY-MM-DD` heading that is *not* at the very
start of the content is nevertheless stripped — the heading regex carries
the `m` flag, so `^` anchors at every line start and `.replace` removes
the first match anywhere.  The claim's reading (later headings left
intact) disagrees with the code on this body. -/
theorem later_heading_stripped_counterexample :
    extractContent "Hello\n## 2024-01-01\nWorld" = "Hello\nWorld" ∧
    extractContentClaimC3 "Hello\n## 2024-01-01\nWorld" = "Hello\n## 2024-01-01\nWorld" ∧
    ("Hello\nWorld" : String) ≠ "Hello\n## 2024-01-01\nWorld" := by decide

theorem takeWhile_ne_nl_append (p q : List Char) (hp : '\n' ∉ p) :
    (p ++ '\n' :: q).takeWhile (fun c => c ≠ '\n') = p := by
  induction p with
  | nil =>
    rw [List.nil_append, List.takeWhile_cons, if_neg (by simp)]
  | cons c r ih =>
    have hc : c ≠ '\n' := fun he => hp (he ▸ List.mem_cons_self c r)
    have hr : '\n' ∉ r := fun hm => hp (List.mem_cons_of_mem c hm)
    rw [List.cons_append, List.takeWhile_cons, if_pos (by simp [hc]), ih hr]

theorem dropWhile_ne_nl_append (p q : List Char) (hp : '\n' ∉ p) :
    (p ++ '\n' :: q).dropWhile (fun c => c ≠ '\n') = '\n' :: q := by
  induction p with
  | nil =>
    rw [List.nil_append, List.dropWhile_cons, if_neg (by simp)]
  | cons c r ih =>
    have hc : c ≠ '\n' := fun he => hp (he ▸ List.mem_cons_self c r)
    have hr : '\n' ∉ r := fun hm => hp (List.mem_cons_of_mem c hm)
    rw [List.cons_append, List.dropWhile_cons, if_pos (by simp [hc]), ih hr]

/-- C3 amended: extraction takes everything before the first line that
consists solely of `---` (optionally surrounded by whitespace); then one
heading line matching `## YYYY-MM-DD` is stripped at the *first line start
where the pattern matches, anywhere in the content* — not only at the very
start.  Conjuncts: (1) appending a `---` line and arbitrary text after a
separator-free body does not change the extraction; (2) a match at the
start of the content is removed; (3) concrete form of (2) for a
`"## 2024-06-01"` heading line; (4) the scanner walks line by line, so a
later heading is removed once the earlier line starts do not match;
(5) the extraction pipeline is: cut at the separator, trim, strip the
first heading match, trim. -/
theorem extraction_characterisation :
    (∀ (a c : List Char), (∀ l ∈ linesOf a, sepLine l = false) →
       extractRelevantContent (a ++ '\n' :: '-' :: '-' :: '-' :: '\n' :: c) =
         extractRelevantContent a) ∧
    (∀ (s rest : List Char), matchHeading s = some rest → stripFirstHeading s = rest) ∧
    (∀ rest : List Char,
       stripFirstHeading
         ('#' :: '#' :: ' ' :: '2' :: '0' :: '2' :: '4' :: '-' :: '0' :: '6' :: '-' ::
           '0' :: '1' :: '\n' :: rest) = rest) ∧
    (∀ (p q : List Char), '\n' ∉ p → matchHeading (p ++ '\n' :: q) = none →
       stripFirstHeading (p ++ '\n' :: q) = p ++ '\n' :: stripFirstHeading q) ∧
    (∀ b : List Char, extractRelevantContent b =
       jsTrim (stripFirstHeading (jsTrim (contentBeforeSep b)))) := by
  have hmatch : ∀ (s rest : List Char), matchHeading s = some rest →
      stripFirstHeading s = rest := by
    intro s rest h
    rw [stripFirstHeading_eq, h]
  refine ⟨?_, hmatch, ?_, ?_, fun b => rfl⟩
  · intro a c hns
    have hsep : linesOf (a ++ '\n' :: '-' :: '-' :: '-' :: '\n' :: c) =
        linesOf a ++ ['-', '-', '-'] :: linesOf c := by
      rw [show ('-' :: '-' :: '-' :: '\n' :: c : List Char) =
          ['-', '-', '-'] ++ '\n' :: c from rfl, linesOf_append_nl, linesOf_append_nl]
      rfl
    have hcut : contentBeforeSep (a ++ '\n' :: '-' :: '-' :: '-' :: '\n' :: c) =
        contentBeforeSep a := by
      unfold contentBeforeSep
      rw [hsep, takeWhile_append_head_false _ _ _
          (fun l hl => by simp [hns l hl]) (by simp [sepLine]; decide),
        List.takeWhile_eq_self_iff.mpr (fun l hl => by simp [hns l hl])]
    unfold extractRelevantContent
    rw [hcut, contentBeforeSep_of_noSep a hns]
  · intro rest
    exact hmatch _ _ rfl
  · intro p q hp hnone
    rw [stripFirstHeading_eq, hnone, dropWhile_ne_nl_append p q hp,
      takeWhile_ne_nl_append p q hp]

/-- Witness for C3 (amended) at concrete inputs. -/
theorem extraction_characterisation_witness :
    extractRelevantContent
        ("line one".data ++ '\n' :: '-' :: '-' :: '-' :: '\n' :: "secret".data) =
      extractRelevantContent "line one".data ∧
    stripFirstHeading "## 2024-06-01\ntext".data = "text".data ∧
    stripFirstHeading ("Hi".data ++ '\n' :: "## 2024-06-01\ntext".data) =
      "Hi".data ++ '\n' :: stripFirstHeading "## 2024-06-01\ntext".data :=
  ⟨extraction_characterisation.1 "line one".data "secret".data (by decide),
   extraction_characterisation.2.1 "## 2024-06-01\ntext".data "text".data (by decide),
   extraction_characterisation.2.2.2.1 "Hi".data "## 2024-06-01\ntext".data
     (by decide) (by decide)⟩

/-! ## Trim lemmas (towards claim C8) -/

/-- A list that does not start with whitespace. -/
def headNotWs : List Char → Prop
  | [] => True
  | c :: _ => isWs c = false

theorem headNotWs_trimLeft (s : List Char) : headNotWs (trimLeft s) := by
  induction s with
  | nil => trivial
  | cons c r ih =>
    by_cases h : isWs c = true
    · simpa [trimLeft, List.dropWhile_cons, h] using ih
    · simp only [trimLeft, List.dropWhile_cons, h, if_false]
      simpa using h

theorem trimLeft_of_headNotWs {s : List Char} (h : headNotWs s) : trimLeft s = s := by
  cases s with
  | nil => rfl
  | cons c r =>
    simp only [headNotWs] at h
    simp [trimLeft, List.dropWhile_cons, h]

theorem headNotWs_trimRight {s : List Char} (h : headNotWs s) : headNotWs (trimRight s) := by
  cases s with
  | nil => trivial
  | cons c r =>
    simp only [headNotWs] at h
    show headNotWs (if _ then _ else _)
    split
    · trivial
    · exact h

theorem trimRight_cons (c : Char) (r : List Char) :
    trimRight (c :: r) = if trimRight r = [] && isWs c then [] else c :: trimRight r := rfl

theorem trimRight_idem (s : List Char) : trimRight (trimRight s) = trimRight s := by
  induction s with
  | nil => rfl
  | cons c r ih =>
    rw [trimRight_cons]
    by_cases h : (decide (trimRight r = []) && isWs c) = true
    · rw [if_pos h]
      rfl
    · rw [if_neg h, trimRight_cons, ih, if_neg h]

theorem jsTrim_idem (s : List Char) : jsTrim (jsTrim s) = jsTrim s := by
  unfold jsTrim
  rw [trimLeft_of_headNotWs (headNotWs_trimRight (headNotWs_trimLeft s)), trimRight_idem]

/-- All-whitespace lists. -/
def allWs (w : List Char) : Prop := ∀ c ∈ w, isWs c = true

theorem trimRight_eq_nil_of_allWs {w : List Char} (h : allWs w) : trimRight w = [] := by
  induction w with
  | nil => rfl
  | cons c r ih =>
    have hc : isWs c = true := h c (List.mem_cons_self c r)
    have hr : trimRight r = [] := ih (fun x hx => h x (List.mem_cons_of_mem c hx))
    show (if trimRight r = [] && isWs c then [] else c :: trimRight r) = []
    rw [if_pos (by simp [hr, hc])]

/-- `trimRight` only removes a whitespace suffix. -/
theorem trimRight_decomp (s : List Char) :
    ∃ w, s = trimRight s ++ w ∧ allWs w := by
  induction s with
  | nil => exact ⟨[], rfl, by intro c hc; cases hc⟩
  | cons c r ih =>
    obtain ⟨w, hw, hws⟩ := ih
    show ∃ w', c :: r = (if trimRight r = [] && isWs c then [] else c :: trimRight r) ++ w' ∧ allWs w'
    by_cases h : (decide (trimRight r = []) && isWs c) = true
    · rw [if_pos h]
      refine ⟨c :: r, rfl, ?_⟩
      have h1 : trimRight r = [] := by
        rcases Bool.and_eq_true_iff.mp h with ⟨h1, _⟩
        exact of_decide_eq_true h1
      have h2 : isWs c = true := (Bool.and_eq_true_iff.mp h).2
      intro x hx
      rcases List.mem_cons.mp hx with rfl | hx
      · exact h2
      · rw [hw, h1, List.nil_append] at hx
        exact hws x hx
    · rw [if_neg h]
      refine ⟨w, ?_, hws⟩
      rw [List.cons_append, ← hw]

theorem jsTrim_ws_cons {c : Char} (hc : isWs c = true) (s : List Char) :
    jsTrim (c :: s) = jsTrim s := by
  unfold jsTrim trimLeft
  rw [List.dropWhile_cons, if_pos (by simp [hc])]

theorem trimRight_append_allWs {w : List Char} (hw : allWs w) (s : List Char) :
    trimRight (s ++ w) = trimRight s := by
  induction s with
  | nil =>
    rw [List.nil_append, trimRight_eq_nil_of_allWs hw]
    rfl
  | cons c r ih =>
    show (if trimRight (r ++ w) = [] && isWs c then [] else c :: trimRight (r ++ w)) =
      (if trimRight r = [] && isWs c then [] else c :: trimRight r)
    rw [ih]

theorem jsTrim_append_allWs {w : List Char} (hw : allWs w) (s : List Char) :
    jsTrim (s ++ w) = jsTrim s := by
  unfold jsTrim
  by_cases h : trimLeft s = []
  · have h' : List.dropWhile isWs s = [] := h
    have hs : allWs s := fun c hc => List.dropWhile_eq_nil_iff.mp h' c hc
    have h2 : trimLeft (s ++ w) = [] := by
      show List.dropWhile isWs (s ++ w) = []
      rw [List.dropWhile_eq_nil_iff]
      intro x hx
      rcases List.mem_append.mp hx with hx | hx
      · exact hs x hx
      · exact hw x hx
    rw [h, h2]
  · have h3 : ¬((List.dropWhile isWs s).isEmpty = true) := by
      rw [List.isEmpty_iff]
      exact h
    have h2 : trimLeft (s ++ w) = trimLeft s ++ w := by
      show List.dropWhile isWs (s ++ w) = List.dropWhile isWs s ++ w
      rw [List.dropWhile_append, if_neg h3]
    rw [h2, trimRight_append_allWs hw]

theorem mem_of_mem_takeWhile {α : Type} {p : α → Bool} {l : List α} {c : α}
    (h : c ∈ l.takeWhile p) : c ∈ l := by
  induction l with
  | nil =>
    simp at h
  | cons a r ih =>
    rw [List.takeWhile_cons] at h
    by_cases hp : p a = true
    · rw [if_pos hp] at h
      rcases List.mem_cons.mp h with he | h
      · rw [he]
        exact List.mem_cons_self a r
      · exact List.mem_cons_of_mem a (ih h)
    · rw [if_neg hp] at h
      cases h

theorem dropWhile_head_false {α : Type} {p : α → Bool} {l t : List α} {c : α}
    (h : l.dropWhile p = c :: t) : p c = false := by
  induction l with
  | nil => cases h
  | cons a r ih =>
    rw [List.dropWhile_cons] at h
    by_cases hp : p a = true
    · rw [if_pos hp] at h
      exact ih h
    · rw [if_neg hp] at h
      cases h
      simpa using hp

/-! ## Decomposition of a heading match, and line mapping under trims -/

theorem matchDigits_decomp :
    ∀ (n : Nat) (s r : List Char), matchDigits n s = some r → ∃ p, s = p ++ r := by
  intro n
  induction n with
  | zero =>
    intro s r h
    rw [show matchDigits 0 s = some s from rfl] at h
    exact ⟨[], by cases h; rfl⟩
  | succ n ih =>
    intro s r h
    cases s with
    | nil => cases h
    | cons c t =>
      rw [show matchDigits (n + 1) (c :: t) =
        (if c.isDigit then matchDigits n t else none) from rfl] at h
      by_cases hc : c.isDigit = true
      · rw [if_pos hc] at h
        obtain ⟨p, hp⟩ := ih t r h
        exact ⟨c :: p, by rw [hp]; rfl⟩
      · rw [if_neg hc] at h
        cases h

theorem matchDate_decomp (s r : List Char) (h : matchDate s = some r) :
    ∃ p, s = p ++ r := by
  unfold matchDate at h
  cases h4 : matchDigits 4 s with
  | none =>
    rw [h4] at h
    cases h
  | some s1 =>
    rw [h4] at h
    cases s1 with
    | nil => cases h
    | cons c1 t1 =>
      replace h : (if c1 = '-' then
          (match matchDigits 2 t1 with
           | some (c2 :: s2) => if c2 = '-' then matchDigits 2 s2 else none
           | _ => none)
        else none) = some r := h
      by_cases hc1 : c1 = '-'
      · rw [if_pos hc1] at h
        cases h2 : matchDigits 2 t1 with
        | none =>
          rw [h2] at h
          cases h
        | some s2 =>
          rw [h2] at h
          cases s2 with
          | nil => cases h
          | cons c2 t2 =>
            replace h : (if c2 = '-' then matchDigits 2 t2 else none) = some r := h
            by_cases hc2 : c2 = '-'
            · rw [if_pos hc2] at h
              obtain ⟨p3, hp3⟩ := matchDigits_decomp 2 t2 r h
              obtain ⟨p2, hp2⟩ := matchDigits_decomp 2 t1 (c2 :: t2) h2
              obtain ⟨p1, hp1⟩ := matchDigits_decomp 4 s (c1 :: t1) h4
              refine ⟨p1 ++ c1 :: (p2 ++ c2 :: p3), ?_⟩
              rw [hp1, hp2, hp3]
              simp
            · rw [if_neg hc2] at h
              cases h
      · rw [if_neg hc1] at h
        cases h

theorem lazyWsNl_decomp :
    ∀ (s r : List Char), lazyWsNl s = some r → ∃ p, s = p ++ '\n' :: r := by
  intro s
  induction s with
  | nil =>
    intro r h
    cases h
  | cons c t ih =>
    intro r h
    rw [show lazyWsNl (c :: t) =
      (if c = '\n' then some t else if isWs c then lazyWsNl t else none) from rfl] at h
    by_cases hc : c = '\n'
    · rw [if_pos hc] at h
      cases h
      exact ⟨[], by subst hc; rfl⟩
    · rw [if_neg hc] at h
      by_cases hw : isWs c = true
      · rw [if_pos hw] at h
        obtain ⟨p, hp⟩ := ih r h
        exact ⟨c :: p, by rw [hp]; rfl⟩
      · rw [if_neg hw] at h
        cases h

theorem matchHeading_decomp (s rest : List Char) (h : matchHeading s = some rest) :
    ∃ a, s = a ++ '\n' :: rest := by
  cases s with
  | nil => cases h
  | cons c1 t =>
    cases t with
    | nil => cases h
    | cons c2 t2 =>
      rw [show matchHeading (c1 :: c2 :: t2) =
        (if c1 = '#' && c2 = '#' then
          if (t2.takeWhile isWs) = [] then none
          else
            match matchDate (t2.dropWhile isWs) with
            | some s2 => lazyWsNl s2
            | none => none
        else none) from rfl] at h
      by_cases hh : (decide (c1 = '#') && decide (c2 = '#')) = true
      · rw [if_pos hh] at h
        by_cases htw : t2.takeWhile isWs = []
        · rw [if_pos htw] at h
          cases h
        · rw [if_neg htw] at h
          cases hmd : matchDate (t2.dropWhile isWs) with
          | none =>
            rw [hmd] at h
            cases h
          | some s2 =>
            rw [hmd] at h
            obtain ⟨p2, hp2⟩ := lazyWsNl_decomp s2 rest h
            obtain ⟨p1, hp1⟩ := matchDate_decomp _ s2 hmd
            refine ⟨c1 :: c2 :: (t2.takeWhile isWs ++ (p1 ++ p2)), ?_⟩
            have ht : t2 = t2.takeWhile isWs ++ t2.dropWhile isWs :=
              (List.takeWhile_append_dropWhile isWs t2).symm
            calc c1 :: c2 :: t2
                = c1 :: c2 :: (t2.takeWhile isWs ++ t2.dropWhile isWs) := by rw [← ht]
              _ = c1 :: c2 :: (t2.takeWhile isWs ++ (p1 ++ (p2 ++ '\n' :: rest))) := by
                  rw [← hp2, ← hp1]
              _ = (c1 :: c2 :: (t2.takeWhile isWs ++ (p1 ++ p2))) ++ '\n' :: rest := by
                  simp
      · rw [if_neg hh] at h
        cases h

/-- Prefixing with whitespace: every line of `z` trims like some line of
`w ++ z` when `w` is all whitespace. -/
theorem lines_map_ws_front (z : List Char) :
    ∀ (w : List Char), allWs w →
      ∀ l ∈ linesOf z, ∃ l' ∈ linesOf (w ++ z), jsTrim l = jsTrim l' := by
  intro w
  induction w with
  | nil =>
    intro _ l hl
    exact ⟨l, by simpa using hl, rfl⟩
  | cons c w' ih =>
    intro hw l hl
    have hc : isWs c = true := hw c (List.mem_cons_self c w')
    obtain ⟨l', hl', heq⟩ := ih (fun x hx => hw x (List.mem_cons_of_mem c hx)) l hl
    by_cases hcn : c = '\n'
    · subst hcn
      refine ⟨l', ?_, heq⟩
      rw [List.cons_append, linesOf_cons_nl]
      exact List.mem_cons_of_mem [] hl'
    · cases hlw : linesOf (w' ++ z) with
      | nil => exact absurd hlw (linesOf_ne_nil _)
      | cons h0 t0 =>
        rw [hlw] at hl'
        rcases List.mem_cons.mp hl' with he | hmem
        · refine ⟨c :: h0, ?_, ?_⟩
          · rw [List.cons_append, linesOf_cons_ne c _ hcn h0 t0 hlw]
            exact List.mem_cons_self _ _
          · rw [heq, he, jsTrim_ws_cons hc]
        · refine ⟨l', ?_, heq⟩
          rw [List.cons_append, linesOf_cons_ne c _ hcn h0 t0 hlw]
          exact List.mem_cons_of_mem _ hmem

/-- Newline-free case of `lines_map_ws_back`. -/
theorem lines_map_ws_back_nl_free (z w : List Char) (hz : '\n' ∉ z) (hw : allWs w) :
    ∀ l ∈ linesOf z, ∃ l' ∈ linesOf (z ++ w), jsTrim l = jsTrim l' := by
  intro l hl
  rw [linesOf_nl_free z hz] at hl
  rcases (List.mem_singleton.mp hl).symm with rfl
  by_cases hnw : '\n' ∈ w
  · have hdw : w.dropWhile (fun c => c ≠ '\n') ≠ [] := by
      intro hnil
      have := List.dropWhile_eq_nil_iff.mp hnil '\n' hnw
      simp at this
    cases hdwe : w.dropWhile (fun c => c ≠ '\n') with
    | nil => exact absurd hdwe hdw
    | cons c w1 =>
      have hc : c = '\n' := by
        have := dropWhile_head_false hdwe
        simpa using this
      subst hc
      have hw0 : allWs (w.takeWhile (fun c => c ≠ '\n')) :=
        fun x hx => hw x (mem_of_mem_takeWhile hx)
      have hw0nl : '\n' ∉ w.takeWhile (fun c => c ≠ '\n') := by
        intro hmem
        have := List.mem_takeWhile_imp hmem
        simp at this
      have hsplit : z ++ w = (z ++ w.takeWhile (fun c => c ≠ '\n')) ++ '\n' :: w1 := by
        conv_lhs => rw [← List.takeWhile_append_dropWhile (fun c => c ≠ '\n') w]
        rw [hdwe]
        simp
      refine ⟨z ++ w.takeWhile (fun c => c ≠ '\n'), ?_, ?_⟩
      · rw [hsplit, linesOf_append_nl,
          linesOf_nl_free _ (by
            intro hmem
            rcases List.mem_append.mp hmem with hm | hm
            · exact hz hm
            · exact hw0nl hm)]
        simp
      · rw [jsTrim_append_allWs hw0]
  · refine ⟨z ++ w, ?_, ?_⟩
    · rw [linesOf_nl_free _ (by
        intro hmem
        rcases List.mem_append.mp hmem with hm | hm
        · exact hz hm
        · exact hnw hm)]
      simp
    · rw [jsTrim_append_allWs hw]

/-- Suffixing with whitespace: every line of `z` trims like some line of
`z ++ w` when `w` is all whitespace. -/
theorem lines_map_ws_back :
    ∀ (n : Nat) (z w : List Char), z.length ≤ n → allWs w →
      ∀ l ∈ linesOf z, ∃ l' ∈ linesOf (z ++ w), jsTrim l = jsTrim l' := by
  intro n
  induction n with
  | zero =>
    intro z w hlen hw
    have hz : z = [] := List.eq_nil_of_length_eq_zero (Nat.le_zero.mp hlen)
    subst hz
    exact lines_map_ws_back_nl_free [] w (by simp) hw
  | succ n ih =>
    intro z w hlen hw l hl
    by_cases hnl : '\n' ∈ z
    · have hdw : z.dropWhile (fun c => c ≠ '\n') ≠ [] := by
        intro hnil
        have := List.dropWhile_eq_nil_iff.mp hnil '\n' hnl
        simp at this
      cases hdwe : z.dropWhile (fun c => c ≠ '\n') with
      | nil => exact absurd hdwe hdw
      | cons c tail =>
        have hc : c = '\n' := by
          have := dropWhile_head_false hdwe
          simpa using this
        subst hc
        have hpnl : '\n' ∉ z.takeWhile (fun c => c ≠ '\n') := by
          intro hmem
          have := List.mem_takeWhile_imp hmem
          simp at this
        have hsplit : z = z.takeWhile (fun c => c ≠ '\n') ++ '\n' :: tail := by
          conv_lhs => rw [← List.takeWhile_append_dropWhile (fun c => c ≠ '\n') z]
          rw [hdwe]
        have hlines : linesOf z = [z.takeWhile (fun c => c ≠ '\n')] ++ linesOf tail := by
          conv_lhs => rw [hsplit]
          rw [linesOf_append_nl, linesOf_nl_free _ hpnl]
        have hlines2 : linesOf (z ++ w) =
            [z.takeWhile (fun c => c ≠ '\n')] ++ linesOf (tail ++ w) := by
          conv_lhs => rw [hsplit]
          rw [List.append_assoc, List.cons_append, linesOf_append_nl,
            linesOf_nl_free _ hpnl]
        have htlen : tail.length ≤ n := by
          have : z.length = (z.takeWhile (fun c => c ≠ '\n')).length + (tail.length + 1) := by
            conv_lhs => rw [hsplit]
            simp
          omega
        rw [hlines] at hl
        rcases List.mem_append.mp hl with hm | hm
        · rcases List.mem_singleton.mp hm with rfl
          refine ⟨z.takeWhile (fun c => c ≠ '\n'), ?_, rfl⟩
          rw [hlines2]
          simp
        · obtain ⟨l', hl', heq⟩ := ih tail w htlen hw l hm
          refine ⟨l', ?_, heq⟩
          rw [hlines2]
          exact List.mem_append.mpr (Or.inr hl')
    · exact lines_map_ws_back_nl_free z w hnl hw l hl

/-! ## No separator line survives extraction (towards claim C8) -/

/-- None of the lines of `s` is a `---` separator line. -/
def noSepLines (s : List Char) : Prop := ∀ l ∈ linesOf s, sepLine l = false

theorem linesOf_joinLines :
    ∀ (ls : List (List Char)), ls ≠ [] → (∀ l ∈ ls, '\n' ∉ l) →
      linesOf (joinLines ls) = ls := by
  intro ls
  induction ls with
  | nil => intro h; exact absurd rfl h
  | cons l ls ih =>
    intro _ hnl
    cases ls with
    | nil =>
      show linesOf l = [l]
      exact linesOf_nl_free l (hnl l (List.mem_cons_self l []))
    | cons l2 ls2 =>
      rw [joinLines_cons_ne l (by simp), linesOf_append_nl,
        linesOf_nl_free l (hnl l (List.mem_cons_self l _)),
        ih (by simp) (fun x hx => hnl x (List.mem_cons_of_mem l hx))]
      rfl

theorem noSepLines_contentBeforeSep (b : List Char) : noSepLines (contentBeforeSep b) := by
  unfold contentBeforeSep
  cases htw : (linesOf b).takeWhile (fun l => !(sepLine l)) with
  | nil =>
    intro l hl
    rw [show joinLines [] = [] from rfl, show linesOf [] = [[]] from rfl] at hl
    rcases List.mem_singleton.mp hl with rfl
    rfl
  | cons l0 ls0 =>
    intro l hl
    have hnl : ∀ x ∈ l0 :: ls0, '\n' ∉ x := fun x hx =>
      nl_not_mem_of_mem_linesOf (mem_of_mem_takeWhile (htw ▸ hx))
    rw [linesOf_joinLines (l0 :: ls0) (by simp) hnl] at hl
    have hmem : l ∈ (linesOf b).takeWhile (fun l => !(sepLine l)) := htw ▸ hl
    have := List.mem_takeWhile_imp hmem
    simpa using this

theorem noSepLines_stripFirstHeading :
    ∀ (n : Nat) (x : List Char), x.length ≤ n → noSepLines x →
      noSepLines (stripFirstHeading x) := by
  intro n
  induction n with
  | zero =>
    intro x hlen h
    have hx : x = [] := List.eq_nil_of_length_eq_zero (Nat.le_zero.mp hlen)
    subst hx
    exact h
  | succ n ih =>
    intro x hlen h
    cases hmh : matchHeading x with
    | some rest =>
      have hSx : stripFirstHeading x = rest := by
        rw [stripFirstHeading_eq, hmh]
      obtain ⟨a, ha⟩ := matchHeading_decomp x rest hmh
      intro l hl
      rw [hSx] at hl
      refine h l ?_
      rw [ha, linesOf_append_nl]
      exact List.mem_append.mpr (Or.inr hl)
    | none =>
      cases hdw : x.dropWhile (fun c => c ≠ '\n') with
      | nil =>
        have hSx : stripFirstHeading x = x := by
          rw [stripFirstHeading_eq, hmh, hdw]
        rw [hSx]
        exact h
      | cons c tail =>
        have hc : c = '\n' := by
          have := dropWhile_head_false hdw
          simpa using this
        subst hc
        have hSx : stripFirstHeading x =
            x.takeWhile (fun c => c ≠ '\n') ++ '\n' :: stripFirstHeading tail := by
          rw [stripFirstHeading_eq, hmh, hdw]
        have hsplit : x = x.takeWhile (fun c => c ≠ '\n') ++ '\n' :: tail := by
          conv_lhs => rw [← List.takeWhile_append_dropWhile (fun c => c ≠ '\n') x]
          rw [hdw]
        have hpnl : '\n' ∉ x.takeWhile (fun c => c ≠ '\n') := by
          intro hmem
          have := List.mem_takeWhile_imp hmem
          simp at this
        have hxlines : linesOf x =
            [x.takeWhile (fun c => c ≠ '\n')] ++ linesOf tail := by
          conv_lhs => rw [hsplit]
          rw [linesOf_append_nl, linesOf_nl_free _ hpnl]
        have htlen : tail.length ≤ n := by
          have : x.length = (x.takeWhile (fun c => c ≠ '\n')).length + (tail.length + 1) := by
            conv_lhs => rw [hsplit]
            simp
          omega
        have htail : noSepLines tail := fun l hl => h l (by
          rw [hxlines]
          exact List.mem_append.mpr (Or.inr hl))
        intro l hl
        rw [hSx, linesOf_append_nl, linesOf_nl_free _ hpnl] at hl
        rcases List.mem_append.mp hl with hm | hm
        · rcases List.mem_singleton.mp hm with rfl
          exact h _ (by
            rw [hxlines]
            exact List.mem_append.mpr (Or.inl (List.mem_singleton.mpr rfl)))
        · exact ih tail htlen htail l hm

theorem noSepLines_jsTrim {x : List Char} (h : noSepLines x) : noSepLines (jsTrim x) := by
  intro l hl
  obtain ⟨w, hw, hws⟩ := trimRight_decomp (trimLeft x)
  have hjw : jsTrim x ++ w = trimLeft x := by
    rw [show jsTrim x = trimRight (trimLeft x) from rfl, ← hw]
  obtain ⟨l', hl', he1⟩ :=
    lines_map_ws_back (jsTrim x).length (jsTrim x) w (le_refl _) hws l hl
  rw [hjw] at hl'
  have hpre : allWs (x.takeWhile isWs) := fun c hc => List.mem_takeWhile_imp hc
  obtain ⟨l'', hl'', he2⟩ := lines_map_ws_front (trimLeft x) (x.takeWhile isWs) hpre l' hl'
  have hx : x.takeWhile isWs ++ trimLeft x = x := List.takeWhile_append_dropWhile isWs x
  rw [hx] at hl''
  have hsep := h l'' hl''
  simp only [sepLine] at hsep ⊢
  rw [he1, he2]
  exact hsep

/-! ## Claim C8: extraction purity and idempotence -/

/-- C8 counterexample: a body with two consecutive date-heading lines.
The first application of extraction removes only the first heading, the
second application removes the second, so extraction applied to its own
output does not return it unchanged. -/
theorem extraction_not_idempotent_counterexample :
    extractContent "## 2024-01-01\n## 2024-01-02\nx" = "## 2024-01-02\nx" ∧
    extractContent (extractContent "## 2024-01-01\n## 2024-01-02\nx") = "x" ∧
    ("x" : String) ≠ "## 2024-01-02\nx" := by decide

/-- C8 amended: extraction is a pure function of the body text (equal
bodies give equal content), and extraction applied to its own output
returns it unchanged *provided the output contains no further
date-heading match* — the only way re-extraction can change anything is by
stripping one more `## YYYY-MM-DD` heading line. -/
theorem extraction_pure_and_conditionally_idempotent :
    (∀ b₁ b₂ : List Char, b₁ = b₂ →
      extractRelevantContent b₁ = extractRelevantContent b₂) ∧
    (∀ b : List Char,
      stripFirstHeading (extractRelevantContent b) = extractRelevantContent b →
      extractRelevantContent (extractRelevantContent b) = extractRelevantContent b) := by
  refine ⟨fun b₁ b₂ he => by rw [he], fun b h => ?_⟩
  have h0 : noSepLines (contentBeforeSep b) := noSepLines_contentBeforeSep b
  have h1 : noSepLines (jsTrim (contentBeforeSep b)) := noSepLines_jsTrim h0
  have h2 : noSepLines (stripFirstHeading (jsTrim (contentBeforeSep b))) :=
    noSepLines_stripFirstHeading _ _ (le_refl _) h1
  have h3 : noSepLines (extractRelevantContent b) := noSepLines_jsTrim h2
  have h4 : jsTrim (extractRelevantContent b) = extractRelevantContent b := by
    show jsTrim (jsTrim (stripFirstHeading (jsTrim (contentBeforeSep b)))) = _
    exact jsTrim_idem _
  show jsTrim (stripFirstHeading (jsTrim (contentBeforeSep (extractRelevantContent b)))) = _
  rw [contentBeforeSep_of_noSep _ h3, h4, h]
  exact h4

/-- Witness for C8 (amended) at a concrete input. -/
theorem extraction_pure_and_conditionally_idempotent_witness :
    extractRelevantContent "a\nbc".data = extractRelevantContent "a\nbc".data ∧
    extractRelevantContent (extractRelevantContent "Hello\n---\nsecret".data) =
      extractRelevantContent "Hello\n---\nsecret".data :=
  ⟨extraction_pure_and_conditionally_idempotent.1 "a\nbc".data "a\nbc".data rfl,
   extraction_pure_and_conditionally_idempotent.2 "Hello\n---\nsecret".data (by decide)⟩

/-! ## Claim C7: frontmatter round trip

The frontmatter serialisation is performed by the external `gray-matter` /
`js-yaml` packages, which are dependencies, not code of this repository.
Modelled from the spec: the output file begins with a frontmatter block
holding the listed fields, written "in the source markdown-with-frontmatter
convention", and re-parsing that block with the same frontmatter parser
must recover the field values.  The model below is a YAML subset
emitter/parser pair for exactly the record shape `aggregateNotes`
synthesises: every string value is written double-quoted (the YAML escape
a real emitter applies to ambiguous scalars), lists as block sequences,
absent values as `null`. -/

/-- A double-quoted YAML scalar. -/
def quoteStr (v : String) : List Char := '"' :: (v.data ++ ['"'])

/-- `key: value` line. -/
def kvLine (key : String) (v : List Char) : List Char :=
  key.data ++ ':' :: ' ' :: v

/-- The leading characters of a block-sequence item line. -/
def itemLead : List Char := [' ', ' ', '-', ' ']

/-- A block-sequence item line `  - "v"`. -/
def itemLine (v : String) : List Char := itemLead ++ quoteStr v

def emptyListTail : List Char := [':', ' ', '[', ']']

def nullTail : List Char := [':', ' ', 'n', 'u', 'l', 'l']

def yamlStrLines (key v : String) : List (List Char) := [kvLine key (quoteStr v)]

def yamlNullableStrLines (key : String) : Option String → List (List Char)
  | none => [key.data ++ nullTail]
  | some v => [kvLine key (quoteStr v)]

def yamlListLines (key : String) (vs : List String) : List (List Char) :=
  match vs with
  | [] => [key.data ++ emptyListTail]
  | _ => (key.data ++ [':']) :: vs.map itemLine

def yamlNullableListLines (key : String) : Option (List String) → List (List Char)
  | none => [key.data ++ nullTail]
  | some l => yamlListLines key l

/-- The YAML lines of the synthesised frontmatter, in the insertion order
of the `newFrontmatter` object literal. -/
def fmLines (fm : Frontmatter) : List (List Char) :=
  yamlListLines "tags" fm.tags ++
  yamlStrLines "date" fm.date ++
  yamlStrLines "aggregation_type" fm.aggregation_type ++
  yamlNullableListLines "source_tags" fm.source_tags ++
  yamlStrLines "source_directory" fm.source_directory ++
  yamlListLines "filter_privacy" fm.filter_privacy ++
  yamlNullableStrLines "filter_start_date" fm.filter_start_date ++
  yamlNullableStrLines "filter_end_date" fm.filter_end_date

/-- `matter.stringify(content, newFrontmatter)`: the frontmatter block
between `---` fences, followed by the content. -/
def matterStringify (fm : Frontmatter) (content : String) : String :=
  ⟨joinLines ((['-', '-', '-'] : List Char) :: fmLines fm ++ [['-', '-', '-']]) ++
    '\n' :: content.data⟩

/-- Match a leading fragment, returning the remainder. -/
def stripLead : List Char → List Char → Option (List Char)
  | [], s => some s
  | _ :: _, [] => none
  | a :: p, b :: s => if a = b then stripLead p s else none

def parseQuotedAux : List Char → Option (List Char)
  | [] => none
  | c :: r =>
    if c = '"' then (if r = [] then some [] else none)
    else (parseQuotedAux r).map (fun t => c :: t)

/-- Parse a double-quoted scalar. -/
def parseQuoted (v : List Char) : Option String :=
  match v with
  | c :: r => if c = '"' then (parseQuotedAux r).map (fun t => ⟨t⟩) else none
  | [] => none

def parseKVStr (key : String) : List (List Char) → Option (String × List (List Char))
  | l :: rest =>
    (match stripLead (key.data ++ [':', ' ']) l with
     | some v => (parseQuoted v).map (fun s => (s, rest))
     | none => none)
  | [] => none

def parseKVNullableStr (key : String) :
    List (List Char) → Option (Option String × List (List Char))
  | l :: rest =>
    (match stripLead (key.data ++ [':', ' ']) l with
     | some v =>
       if v = ['n', 'u', 'l', 'l'] then some (none, rest)
       else (parseQuoted v).map (fun s => (some s, rest))
     | none => none)
  | [] => none

def parseItems : List (List Char) → List String × List (List Char)
  | [] => ([], [])
  | l :: rest =>
    (match stripLead itemLead l with
     | some v =>
       (match parseQuoted v with
        | some s =>
          let p := parseItems rest
          (s :: p.1, p.2)
        | none => ([], l :: rest))
     | none => ([], l :: rest))

def parseKVList (key : String) :
    List (List Char) → Option (List String × List (List Char))
  | l :: rest =>
    if l = key.data ++ emptyListTail then some ([], rest)
    else if l = key.data ++ [':'] then some (parseItems rest)
    else none
  | [] => none

def parseKVNullableList (key : String) :
    List (List Char) → Option (Option (List String) × List (List Char))
  | l :: rest =>
    if l = key.data ++ nullTail then some (none, rest)
    else (parseKVList key (l :: rest)).map (fun p => (some p.1, p.2))
  | [] => none

/-- Parse the frontmatter block at the start of a written file back into
the `Frontmatter` record (the inverse direction of `matterStringify`). -/
def parseFrontmatterBlock (s : String) : Option Frontmatter :=
  match linesOf s.data with
  | l0 :: rest =>
    if l0 = ['-', '-', '-'] then
      match parseKVList "tags" rest with
      | some (tags, r1) =>
        match parseKVStr "date" r1 with
        | some (date, r2) =>
          match parseKVStr "aggregation_type" r2 with
          | some (atype, r3) =>
            match parseKVNullableList "source_tags" r3 with
            | some (stags, r4) =>
              match parseKVStr "source_directory" r4 with
              | some (sdir, r5) =>
                match parseKVList "filter_privacy" r5 with
                | some (fpriv, r6) =>
                  match parseKVNullableStr "filter_start_date" r6 with
                  | some (fsd, r7) =>
                    match parseKVNullableStr "filter_end_date" r7 with
                    | some (fed, r8) =>
                      match r8 with
                      | l :: _ =>
                        if l = ['-', '-', '-'] then
                          some ⟨tags, date, atype, stags, sdir, fpriv, fsd, fed⟩
                        else none
                      | [] => none
                    | none => none
                  | none => none
                | none => none
              | none => none
            | none => none
          | none => none
        | none => none
      | none => none
    else none
  | [] => none

/-- Well-formedness of a string destined for the frontmatter: no newline
(which would break the line structure) and no double quote (which a real
emitter would escape; the modelled subset excludes it). -/
def wfStr (s : String) : Prop := '\n' ∉ s.data ∧ '"' ∉ s.data

def wfOptStr : Option String → Prop
  | none => True
  | some s => wfStr s

def wfStrList (l : List String) : Prop := ∀ v ∈ l, wfStr v

def wfOptStrList : Option (List String) → Prop
  | none => True
  | some l => wfStrList l

def wfFrontmatter (fm : Frontmatter) : Prop :=
  wfStrList fm.tags ∧ wfStr fm.date ∧ wfStr fm.aggregation_type ∧
  wfOptStrList fm.source_tags ∧ wfStr fm.source_directory ∧
  wfStrList fm.filter_privacy ∧ wfOptStr fm.filter_start_date ∧
  wfOptStr fm.filter_end_date

example :
    parseFrontmatterBlock (matterStringify
      { tags := ["aggregated", "trip"], date := "2025-06-01",
        aggregation_type := "single-tag", source_tags := some ["trip"],
        source_directory := "daily", filter_privacy := [],
        filter_start_date := none, filter_end_date := some "2025-01-31" }
      "Went hiking") =
    some { tags := ["aggregated", "trip"], date := "2025-06-01",
           aggregation_type := "single-tag", source_tags := some ["trip"],
           source_directory := "daily", filter_privacy := [],
           filter_start_date := none, filter_end_date := some "2025-01-31" } := by
  decide

/-! ### Round-trip lemmas for the modelled parser -/

theorem stripLead_append : ∀ (p s : List Char), stripLead p (p ++ s) = some s := by
  intro p
  induction p with
  | nil => intro s; rfl
  | cons a p ih =>
    intro s
    show (if a = a then stripLead p (p ++ s) else none) = some s
    rw [if_pos rfl, ih]

theorem parseQuotedAux_closing :
    ∀ (s : List Char), '"' ∉ s → parseQuotedAux (s ++ ['"']) = some s := by
  intro s
  induction s with
  | nil => intro _; rfl
  | cons c r ih =>
    intro h
    have hc : c ≠ '"' := fun he => h (he ▸ List.mem_cons_self c r)
    have hr : '"' ∉ r := fun hm => h (List.mem_cons_of_mem c hm)
    show (if c = '"' then (if r ++ ['"'] = [] then some [] else none)
      else (parseQuotedAux (r ++ ['"'])).map (fun t => c :: t)) = some (c :: r)
    rw [if_neg hc, ih hr]
    rfl

theorem parseQuoted_quoteStr (v : String) (h : '"' ∉ v.data) :
    parseQuoted (quoteStr v) = some v := by
  show (if ('"' : Char) = '"' then
    (parseQuotedAux (v.data ++ ['"'])).map (fun t => (⟨t⟩ : String)) else none) = some v
  rw [if_pos rfl, parseQuotedAux_closing v.data h]
  rfl

theorem kvLine_eq_lead_append (key : String) (v : List Char) :
    kvLine key v = (key.data ++ [':', ' ']) ++ v := by
  simp [kvLine]

theorem parseKVStr_emit (key v : String) (rest : List (List Char))
    (hv : '"' ∉ v.data) :
    parseKVStr key (yamlStrLines key v ++ rest) = some (v, rest) := by
  show parseKVStr key (kvLine key (quoteStr v) :: rest) = some (v, rest)
  show (match stripLead (key.data ++ [':', ' ']) (kvLine key (quoteStr v)) with
    | some w => (parseQuoted w).map (fun s => (s, rest))
    | none => none) = some (v, rest)
  rw [kvLine_eq_lead_append, stripLead_append]
  show (parseQuoted (quoteStr v)).map (fun s => (s, rest)) = some (v, rest)
  rw [parseQuoted_quoteStr v hv]
  rfl

theorem quoteStr_ne_null (v : String) : quoteStr v ≠ ['n', 'u', 'l', 'l'] := by
  intro he
  have h1 : (quoteStr v).head? = some '"' := rfl
  rw [he] at h1
  exact absurd h1 (by decide)

theorem parseKVNullableStr_emit (key : String) (v : Option String)
    (rest : List (List Char)) (hv : wfOptStr v) :
    parseKVNullableStr key (yamlNullableStrLines key v ++ rest) = some (v, rest) := by
  cases v with
  | none =>
    show parseKVNullableStr key ((key.data ++ nullTail) :: rest) = some (none, rest)
    show (match stripLead (key.data ++ [':', ' ']) (key.data ++ nullTail) with
      | some w =>
        if w = ['n', 'u', 'l', 'l'] then some (none, rest)
        else (parseQuoted w).map (fun s => (some s, rest))
      | none => none) = some (none, rest)
    rw [show key.data ++ nullTail = (key.data ++ [':', ' ']) ++ ['n', 'u', 'l', 'l'] by
        simp [nullTail], stripLead_append]
    show (if (['n', 'u', 'l', 'l'] : List Char) = ['n', 'u', 'l', 'l'] then _ else _) = _
    rw [if_pos rfl]
  | some s =>
    show parseKVNullableStr key (kvLine key (quoteStr s) :: rest) = some (some s, rest)
    show (match stripLead (key.data ++ [':', ' ']) (kvLine key (quoteStr s)) with
      | some w =>
        if w = ['n', 'u', 'l', 'l'] then some (none, rest)
        else (parseQuoted w).map (fun t => (some t, rest))
      | none => none) = some (some s, rest)
    rw [kvLine_eq_lead_append, stripLead_append]
    show (if quoteStr s = ['n', 'u', 'l', 'l'] then some (none, rest)
      else (parseQuoted (quoteStr s)).map (fun t => (some t, rest))) = some (some s, rest)
    rw [if_neg (quoteStr_ne_null s), parseQuoted_quoteStr s hv.2]
    rfl

/-- The next line after a block sequence does not look like an item. -/
def headNotItem : List (List Char) → Prop
  | [] => True
  | l :: _ => stripLead itemLead l = none

theorem parseItems_emit :
    ∀ (vs : List String) (rest : List (List Char)),
      (∀ v ∈ vs, '"' ∉ v.data) → headNotItem rest →
      parseItems (vs.map itemLine ++ rest) = (vs, rest) := by
  intro vs
  induction vs with
  | nil =>
    intro rest _ hrest
    cases rest with
    | nil => rfl
    | cons l r =>
      show (match stripLead itemLead l with
        | some v =>
          (match parseQuoted v with
           | some s =>
             let p := parseItems r
             (s :: p.1, p.2)
           | none => ([], l :: r))
        | none => ([], l :: r)) = ([], l :: r)
      rw [show stripLead itemLead l = none from hrest]
  | cons v vs ih =>
    intro rest hq hrest
    have hv : '"' ∉ v.data := hq v (List.mem_cons_self v vs)
    show (match stripLead itemLead (itemLine v) with
      | some w =>
        (match parseQuoted w with
         | some s =>
           let p := parseItems (vs.map itemLine ++ rest)
           (s :: p.1, p.2)
         | none => ([], itemLine v :: (vs.map itemLine ++ rest)))
      | none => ([], itemLine v :: (vs.map itemLine ++ rest))) = (v :: vs, rest)
    rw [show itemLine v = itemLead ++ quoteStr v from rfl, stripLead_append]
    show (match parseQuoted (quoteStr v) with
      | some s =>
        let p := parseItems (vs.map itemLine ++ rest)
        (s :: p.1, p.2)
      | none => ([], (itemLead ++ quoteStr v) :: (vs.map itemLine ++ rest))) = (v :: vs, rest)
    rw [parseQuoted_quoteStr v hv,
      ih rest (fun x hx => hq x (List.mem_cons_of_mem v hx)) hrest]

theorem parseKVList_emit (key : String) (vs : List String) (rest : List (List Char))
    (hq : ∀ v ∈ vs, '"' ∉ v.data) (hrest : headNotItem rest) :
    parseKVList key (yamlListLines key vs ++ rest) = some (vs, rest) := by
  cases vs with
  | nil =>
    show parseKVList key ((key.data ++ emptyListTail) :: rest) = some ([], rest)
    show (if key.data ++ emptyListTail = key.data ++ emptyListTail then some ([], rest)
      else if key.data ++ emptyListTail = key.data ++ [':'] then
        some (parseItems rest) else none) = some ([], rest)
    rw [if_pos rfl]
  | cons v vs' =>
    show parseKVList key ((key.data ++ [':']) :: ((v :: vs').map itemLine ++ rest)) =
      some (v :: vs', rest)
    show (if key.data ++ [':'] = key.data ++ emptyListTail then
        some ([], (v :: vs').map itemLine ++ rest)
      else if key.data ++ [':'] = key.data ++ [':'] then
        some (parseItems ((v :: vs').map itemLine ++ rest)) else none) = some (v :: vs', rest)
    rw [if_neg (by
        rw [List.append_right_inj]
        decide), if_pos rfl, parseItems_emit (v :: vs') rest hq hrest]

theorem parseKVNullableList_emit (key : String) (vs : Option (List String))
    (rest : List (List Char)) (hq : wfOptStrList vs) (hrest : headNotItem rest) :
    parseKVNullableList key (yamlNullableListLines key vs ++ rest) = some (vs, rest) := by
  cases vs with
  | none =>
    show parseKVNullableList key ((key.data ++ nullTail) :: rest) = some (none, rest)
    show (if key.data ++ nullTail = key.data ++ nullTail then some (none, rest)
      else (parseKVList key ((key.data ++ nullTail) :: rest)).map
        (fun p => (some p.1, p.2))) = some (none, rest)
    rw [if_pos rfl]
  | some l =>
    have hlist := parseKVList_emit key l rest (fun v hv => (hq v hv).2) hrest
    cases l with
    | nil =>
      show (if key.data ++ emptyListTail = key.data ++ nullTail then some (none, rest)
        else (parseKVList key (yamlListLines key [] ++ rest)).map
          (fun p => (some p.1, p.2))) = some (some [], rest)
      rw [if_neg (by
          rw [List.append_right_inj]
          decide), hlist]
      rfl
    | cons v vs' =>
      show (if key.data ++ [':'] = key.data ++ nullTail then
          some (none, (v :: vs').map itemLine ++ rest)
        else (parseKVList key (yamlListLines key (v :: vs') ++ rest)).map
          (fun p => (some p.1, p.2))) = some (some (v :: vs'), rest)
      rw [if_neg (by
          rw [List.append_right_inj]
          decide), hlist]
      rfl

/-! ### The emitted lines are newline-free, and the emitted file's lines -/

theorem nl_not_mem_quoteStr {v : String} (hv : '\n' ∉ v.data) : '\n' ∉ quoteStr v := by
  intro hm
  rcases List.mem_cons.mp hm with he | hm2
  · exact absurd he (by decide)
  · rcases List.mem_append.mp hm2 with h | h
    · exact hv h
    · rcases List.mem_singleton.mp h with he
      exact absurd he (by decide)

theorem nl_not_mem_kvLine {key : String} {v : List Char}
    (hk : '\n' ∉ key.data) (hv : '\n' ∉ v) : '\n' ∉ kvLine key v := by
  intro hm
  rcases List.mem_append.mp hm with h | h
  · exact hk h
  · rcases List.mem_cons.mp h with he | h2
    · exact absurd he (by decide)
    · rcases List.mem_cons.mp h2 with he | h3
      · exact absurd he (by decide)
      · exact hv h3

theorem yamlStrLines_nl_free {key v : String} (hk : '\n' ∉ key.data)
    (hv : '\n' ∉ v.data) : ∀ l ∈ yamlStrLines key v, '\n' ∉ l := by
  intro l hl
  rcases List.mem_singleton.mp hl with rfl
  exact nl_not_mem_kvLine hk (nl_not_mem_quoteStr hv)

theorem yamlNullableStrLines_nl_free {key : String} {v : Option String}
    (hk : '\n' ∉ key.data) (hv : wfOptStr v) :
    ∀ l ∈ yamlNullableStrLines key v, '\n' ∉ l := by
  cases v with
  | none =>
    intro l hl
    rcases List.mem_singleton.mp hl with rfl
    intro hm
    rcases List.mem_append.mp hm with h | h
    · exact hk h
    · exact absurd h (by decide)
  | some s =>
    intro l hl
    rcases List.mem_singleton.mp hl with rfl
    exact nl_not_mem_kvLine hk (nl_not_mem_quoteStr hv.1)

theorem yamlListLines_nl_free {key : String} {vs : List String}
    (hk : '\n' ∉ key.data) (hvs : ∀ v ∈ vs, '\n' ∉ v.data) :
    ∀ l ∈ yamlListLines key vs, '\n' ∉ l := by
  cases vs with
  | nil =>
    intro l hl
    rcases List.mem_singleton.mp hl with rfl
    intro hm
    rcases List.mem_append.mp hm with h | h
    · exact hk h
    · exact absurd h (by decide)
  | cons v vs' =>
    intro l hl
    rcases List.mem_cons.mp hl with rfl | hl2
    · intro hm
      rcases List.mem_append.mp hm with h | h
      · exact hk h
      · exact absurd h (by decide)
    · obtain ⟨w, hw, rfl⟩ := List.mem_map.mp hl2
      intro hm
      rcases List.mem_append.mp hm with h | h
      · exact absurd h (by decide)
      · exact nl_not_mem_quoteStr (hvs w hw) h

theorem yamlNullableListLines_nl_free {key : String} {vs : Option (List String)}
    (hk : '\n' ∉ key.data) (hvs : wfOptStrList vs) :
    ∀ l ∈ yamlNullableListLines key vs, '\n' ∉ l := by
  cases vs with
  | none =>
    intro l hl
    rcases List.mem_singleton.mp hl with rfl
    intro hm
    rcases List.mem_append.mp hm with h | h
    · exact hk h
    · exact absurd h (by decide)
  | some l' => exact yamlListLines_nl_free hk (fun v hv => (hvs v hv).1)

theorem fmLines_nl_free (fm : Frontmatter) (h : wfFrontmatter fm) :
    ∀ l ∈ fmLines fm, '\n' ∉ l := by
  obtain ⟨ht, hd, ha, hst, hsd, hfp, hfs, hfe⟩ := h
  intro l hl
  simp only [fmLines, List.mem_append] at hl
  rcases hl with ((((((hl | hl) | hl) | hl) | hl) | hl) | hl) | hl
  · exact yamlListLines_nl_free (by decide) (fun v hv => (ht v hv).1) l hl
  · exact yamlStrLines_nl_free (by decide) hd.1 l hl
  · exact yamlStrLines_nl_free (by decide) ha.1 l hl
  · exact yamlNullableListLines_nl_free (by decide) hst l hl
  · exact yamlStrLines_nl_free (by decide) hsd.1 l hl
  · exact yamlListLines_nl_free (by decide) (fun v hv => (hfp v hv).1) l hl
  · exact yamlNullableStrLines_nl_free (by decide) hfs l hl
  · exact yamlNullableStrLines_nl_free (by decide) hfe l hl

theorem matterStringify_lines (fm : Frontmatter) (content : String)
    (h : wfFrontmatter fm) :
    linesOf (matterStringify fm content).data =
      ['-', '-', '-'] :: (fmLines fm ++ [['-', '-', '-']] ++ linesOf content.data) := by
  show linesOf (joinLines ((['-', '-', '-'] : List Char) :: fmLines fm ++ [['-', '-', '-']]) ++
    '\n' :: content.data) = _
  rw [linesOf_append_nl, linesOf_joinLines _ (by simp) ?hnl]
  case hnl =>
    intro l hl
    rcases List.mem_cons.mp hl with rfl | hl2
    · decide
    · rcases List.mem_append.mp hl2 with h2 | h2
      · exact fmLines_nl_free fm h l h2
      · rcases List.mem_singleton.mp h2 with rfl
        decide
  simp [List.append_assoc]

/-! ### The round-trip theorem (claim C7) -/

theorem stripLead_ne {a b : Char} (p s : List Char) (h : a ≠ b) :
    stripLead (a :: p) (b :: s) = none := by
  show (if a = b then stripLead p s else none) = none
  rw [if_neg h]

theorem headNotItem_keyLine {key : String} {c : Char} {t : List Char}
    (hk : key.data = c :: t) (hc : c ≠ ' ') (X : List Char) (r : List (List Char)) :
    headNotItem ((key.data ++ X) :: r) := by
  show stripLead itemLead (key.data ++ X) = none
  rw [hk, List.cons_append]
  exact stripLead_ne _ _ (fun he => hc he.symm)

theorem headNotItem_yamlNullableStr {key : String} {c : Char} {t : List Char}
    (hk : key.data = c :: t) (hc : c ≠ ' ') (v : Option String) (r : List (List Char)) :
    headNotItem (yamlNullableStrLines key v ++ r) := by
  cases v with
  | none => exact headNotItem_keyLine hk hc nullTail r
  | some s => exact headNotItem_keyLine hk hc (':' :: ' ' :: quoteStr s) r

/-- C7: re-parsing the frontmatter block of the written output file with
the same (modelled) frontmatter parser yields back exactly the field
values supplied at synthesis, for every frontmatter whose string values
are representable (no newline, no double quote) and any content. -/
theorem matter_roundtrip (fm : Frontmatter) (content : String)
    (h : wfFrontmatter fm) :
    parseFrontmatterBlock (matterStringify fm content) = some fm := by
  obtain ⟨ht, hd, ha, hst, hsd, hfp, hfs, hfe⟩ := h
  unfold parseFrontmatterBlock
  rw [matterStringify_lines fm content ⟨ht, hd, ha, hst, hsd, hfp, hfs, hfe⟩]
  have e8 : parseKVNullableStr "filter_end_date"
      (yamlNullableStrLines "filter_end_date" fm.filter_end_date ++
        (['-', '-', '-'] :: linesOf content.data)) =
      some (fm.filter_end_date, ['-', '-', '-'] :: linesOf content.data) :=
    parseKVNullableStr_emit _ _ _ hfe
  have e7 : parseKVNullableStr "filter_start_date"
      (yamlNullableStrLines "filter_start_date" fm.filter_start_date ++
        (yamlNullableStrLines "filter_end_date" fm.filter_end_date ++
          (['-', '-', '-'] :: linesOf content.data))) =
      some (fm.filter_start_date,
        yamlNullableStrLines "filter_end_date" fm.filter_end_date ++
          (['-', '-', '-'] :: linesOf content.data)) :=
    parseKVNullableStr_emit _ _ _ hfs
  have e6 : parseKVList "filter_privacy"
      (yamlListLines "filter_privacy" fm.filter_privacy ++
        (yamlNullableStrLines "filter_start_date" fm.filter_start_date ++
          (yamlNullableStrLines "filter_end_date" fm.filter_end_date ++
            (['-', '-', '-'] :: linesOf content.data)))) =
      some (fm.filter_privacy,
        yamlNullableStrLines "filter_start_date" fm.filter_start_date ++
          (yamlNullableStrLines "filter_end_date" fm.filter_end_date ++
            (['-', '-', '-'] :: linesOf content.data))) :=
    parseKVList_emit _ _ _ (fun v hv => (hfp v hv).2)
      (headNotItem_yamlNullableStr rfl (by decide) _ _)
  have e5 : parseKVStr "source_directory"
      (yamlStrLines "source_directory" fm.source_directory ++
        (yamlListLines "filter_privacy" fm.filter_privacy ++
          (yamlNullableStrLines "filter_start_date" fm.filter_start_date ++
            (yamlNullableStrLines "filter_end_date" fm.filter_end_date ++
              (['-', '-', '-'] :: linesOf content.data))))) =
      some (fm.source_directory,
        yamlListLines "filter_privacy" fm.filter_privacy ++
          (yamlNullableStrLines "filter_start_date" fm.filter_start_date ++
            (yamlNullableStrLines "filter_end_date" fm.filter_end_date ++
              (['-', '-', '-'] :: linesOf content.data)))) :=
    parseKVStr_emit _ _ _ hsd.2
  have e4 : parseKVNullableList "source_tags"
      (yamlNullableListLines "source_tags" fm.source_tags ++
        (yamlStrLines "source_directory" fm.source_directory ++
          (yamlListLines "filter_privacy" fm.filter_privacy ++
            (yamlNullableStrLines "filter_start_date" fm.filter_start_date ++
              (yamlNullableStrLines "filter_end_date" fm.filter_end_date ++
                (['-', '-', '-'] :: linesOf content.data)))))) =
      some (fm.source_tags,
        yamlStrLines "source_directory" fm.source_directory ++
          (yamlListLines "filter_privacy" fm.filter_privacy ++
            (yamlNullableStrLines "filter_start_date" fm.filter_start_date ++
              (yamlNullableStrLines "filter_end_date" fm.filter_end_date ++
                (['-', '-', '-'] :: linesOf content.data))))) :=
    parseKVNullableList_emit _ _ _ hst (headNotItem_keyLine rfl (by decide) _ _)
  have e3 : parseKVStr "aggregation_type"
      (yamlStrLines "aggregation_type" fm.aggregation_type ++
        (yamlNullableListLines "source_tags" fm.source_tags ++
          (yamlStrLines "source_directory" fm.source_directory ++
            (yamlListLines "filter_privacy" fm.filter_privacy ++
              (yamlNullableStrLines "filter_start_date" fm.filter_start_date ++
                (yamlNullableStrLines "filter_end_date" fm.filter_end_date ++
                  (['-', '-', '-'] :: linesOf content.data))))))) =
      some (fm.aggregation_type,
        yamlNullableListLines "source_tags" fm.source_tags ++
          (yamlStrLines "source_directory" fm.source_directory ++
            (yamlListLines "filter_privacy" fm.filter_privacy ++
              (yamlNullableStrLines "filter_start_date" fm.filter_start_date ++
                (yamlNullableStrLines "filter_end_date" fm.filter_end_date ++
                  (['-', '-', '-'] :: linesOf content.data)))))) :=
    parseKVStr_emit _ _ _ ha.2
  have e2 : parseKVStr "date"
      (yamlStrLines "date" fm.date ++
        (yamlStrLines "aggregation_type" fm.aggregation_type ++
          (yamlNullableListLines "source_tags" fm.source_tags ++
            (yamlStrLines "source_directory" fm.source_directory ++
              (yamlListLines "filter_privacy" fm.filter_privacy ++
                (yamlNullableStrLines "filter_start_date" fm.filter_start_date ++
                  (yamlNullableStrLines "filter_end_date" fm.filter_end_date ++
                    (['-', '-', '-'] :: linesOf content.data)))))))) =
      some (fm.date,
        yamlStrLines "aggregation_type" fm.aggregation_type ++
          (yamlNullableListLines "source_tags" fm.source_tags ++
            (yamlStrLines "source_directory" fm.source_directory ++
              (yamlListLines "filter_privacy" fm.filter_privacy ++
                (yamlNullableStrLines "filter_start_date" fm.filter_start_date ++
                  (yamlNullableStrLines "filter_end_date" fm.filter_end_date ++
                    (['-', '-', '-'] :: linesOf content.data))))))) :=
    parseKVStr_emit _ _ _ hd.2
  have e1 : parseKVList "tags"
      (yamlListLines "tags" fm.tags ++
        (yamlStrLines "date" fm.date ++
          (yamlStrLines "aggregation_type" fm.aggregation_type ++
            (yamlNullableListLines "source_tags" fm.source_tags ++
              (yamlStrLines "source_directory" fm.source_directory ++
                (yamlListLines "filter_privacy" fm.filter_privacy ++
                  (yamlNullableStrLines "filter_start_date" fm.filter_start_date ++
                    (yamlNullableStrLines "filter_end_date" fm.filter_end_date ++
                      (['-', '-', '-'] :: linesOf content.data))))))))) =
      some (fm.tags,
        yamlStrLines "date" fm.date ++
          (yamlStrLines "aggregation_type" fm.aggregation_type ++
            (yamlNullableListLines "source_tags" fm.source_tags ++
              (yamlStrLines "source_directory" fm.source_directory ++
                (yamlListLines "filter_privacy" fm.filter_privacy ++
                  (yamlNullableStrLines "filter_start_date" fm.filter_start_date ++
                    (yamlNullableStrLines "filter_end_date" fm.filter_end_date ++
                      (['-', '-', '-'] :: linesOf content.data)))))))) :=
    parseKVList_emit _ _ _ (fun v hv => (ht v hv).2)
      (headNotItem_keyLine rfl (by decide) _ _)
  simp only [fmLines, List.append_assoc, List.singleton_append]
  simp only [e1, e2, e3, e4, e5, e6, e7, e8]
  rfl

/-- Witness for C7 at a concrete input. -/
theorem matter_roundtrip_witness :
    parseFrontmatterBlock (matterStringify
      { tags := ["aggregated", "all"], date := "2025-06-01",
        aggregation_type := "all-notes", source_tags := none,
        source_directory := "daily", filter_privacy := ["public"],
        filter_start_date := none, filter_end_date := none }
      "Hello\n\nWorld") =
    some { tags := ["aggregated", "all"], date := "2025-06-01",
           aggregation_type := "all-notes", source_tags := none,
           source_directory := "daily", filter_privacy := ["public"],
           filter_start_date := none, filter_end_date := none } :=
  matter_roundtrip _ "Hello\n\nWorld" (by
    refine ⟨?_, ?_, ?_, ?_, ?_, ?_, ?_, ?_⟩ <;> first
      | trivial
      | decide
      | (intro v hv; fin_cases hv <;> exact ⟨by decide, by decide⟩))

end NoteAgg
